import Mathlib

/-!
# Verification of `pkg/shared/istio_handler.go`

A shallow embedding of the routing-spec synthesis and diff functions of the
virtual-environment operator, followed by theorems about them.

Modelling conventions

* A Go `string` is a list of Unicode characters (`Str`), that is, well-formed
  UTF-8 text; `len` counts the bytes of its UTF-8 encoding, as Go does.  On
  such text the byte-wise search of the `strings` package finds the same
  occurrences as a search by characters.
* A Go `map[string]V` is the list of its entries (`GoMap V`, keys pairwise
  distinct).  A `range` loop over a map visits the entries in an order the
  language leaves unspecified: every such loop is modelled as a traversal of a
  list of entries, and that list is the order of the visit.
* A loop that may fail to terminate is modelled with fuel and returns `none`
  when the fuel runs out; an index out of range is `none` as well.
-/

namespace Shared

/-- A Go string, as the sequence of its characters. -/
abbrev Str := List Char

/-- A Go `map[string]V`, as the list of its entries. -/
abbrev GoMap (V : Type) := List (Str × V)

/-- The Go builtin `len` on a string: the number of bytes of the UTF-8 encoding. -/
def len (s : Str) : Nat := (String.mk s).utf8ByteSize

/-- The two-valued map read `v, exist := m[k]`: the value of the first entry with key `k`. -/
def GoMap.get? {V : Type} (m : GoMap V) (k : Str) : Option V :=
  match m with
  | [] => none
  | (k', v) :: rest => if k' = k then some v else GoMap.get? rest k

/-- The one-valued map read `m[k]`: the zero value of `V` when `k` is absent. -/
def GoMap.get {V : Type} [Inhabited V] (m : GoMap V) (k : Str) : V :=
  (GoMap.get? m k).getD default

/-- The map write `m[k] = v`: overwrite the entry of `k` or add a new one. -/
def GoMap.set {V : Type} (m : GoMap V) (k : Str) (v : V) : GoMap V :=
  match m with
  | [] => [(k, v)]
  | (k', v') :: rest => if k' = k then (k, v) :: rest else (k', v') :: GoMap.set rest k v

/-- The keys of a map, in the order of its entries. -/
def GoMap.keys {V : Type} (m : GoMap V) : List Str := m.map Prod.fst

/-! ## The `strings` package -/

/-- The library function `strings.Index(s, sub)`: the index of the first occurrence of `sub` in `s`, or `-1`. -/
def Index : Str → Str → Int
  | [], sub => if sub = [] then 0 else -1
  | a :: t, sub =>
    if sub.isPrefixOf (a :: t) then 0
    else
      let r := Index t sub
      if 0 ≤ r then r + 1 else -1

/-- The library function `strings.Contains(s, sub)`, which is `Index(s, sub) >= 0`. -/
def Contains (s sub : Str) : Bool := decide (0 ≤ Index s sub)

/-- The library function `strings.LastIndex(s, sub)`: the index of the last occurrence of `sub` in `s`, or `-1`;
the empty `sub` occurs last at `len(s)`. -/
def LastIndex : Str → Str → Int
  | [], sub => if sub = [] then 0 else -1
  | a :: t, sub =>
    let r := LastIndex t sub
    if 0 ≤ r then r + 1
    else if sub.isPrefixOf (a :: t) then 0 else -1

/-! ## `leveledEqual` -/

/-- The loop of `leveledEqual`, run for at most `fuel` iterations. -/
def leveledEqualLoop : Nat → Str → Str → Str → Option Bool
  | 0, _, _, _ => none
  | fuel + 1, source, target, splitter =>
    if source = target then some true
    else if Contains source splitter then
      leveledEqualLoop fuel (source.take (LastIndex source splitter).toNat) target splitter
    else some false

/-- The function `leveledEqual(source, target, splitter)`; `none` when the loop does not terminate
(`leveledEqualLoop_fuel` and `leveledEqualLoop_diverges` justify the fuel). -/
def leveledEqual (source target splitter : Str) : Option Bool :=
  leveledEqualLoop (source.length + 1) source target splitter

/-! ## The Istio types used by the handler

Only the fields the handler reads or writes are kept; every other field of the
Go structs keeps its zero value throughout. -/

namespace Istio

/-- The struct `v1alpha1.StringMatch`. -/
structure StringMatch where
  Exact : Str
  Prefix : Str
  Suffix : Str
  Regex : Str
deriving DecidableEq, Inhabited

/-- The struct `HTTPMatchRequest`, with its `Headers` map. -/
structure HTTPMatchRequest where
  Headers : GoMap StringMatch
deriving DecidableEq, Inhabited

/-- The struct `Destination`. -/
structure Destination where
  Host : Str
  Subset : Str
deriving DecidableEq, Inhabited

/-- The struct `HTTPRouteDestination`. -/
structure HTTPRouteDestination where
  Destination : Destination
deriving DecidableEq, Inhabited

/-- The struct `HTTPRoute`; `Match = none` is the nil slice. -/
structure HTTPRoute where
  Match : Option (List HTTPMatchRequest)
  Route : List HTTPRouteDestination
deriving DecidableEq, Inhabited

/-- The struct `VirtualServiceSpec`. -/
structure VirtualServiceSpec where
  Hosts : List Str
  HTTP : List HTTPRoute
deriving DecidableEq, Inhabited

/-- The struct `metav1.ObjectMeta`. -/
structure ObjectMeta where
  Name : Str
  Namespace : Str
deriving DecidableEq, Inhabited

/-- The struct `VirtualService`. -/
structure VirtualService where
  ObjectMeta : ObjectMeta
  Spec : VirtualServiceSpec
deriving DecidableEq, Inhabited

/-- The struct `Subset`. -/
structure Subset where
  Name : Str
  Labels : GoMap Str
deriving DecidableEq, Inhabited

/-- The struct `DestinationRuleSpec`. -/
structure DestinationRuleSpec where
  Host : Str
  Subsets : List Subset
deriving DecidableEq, Inhabited

/-- The struct `DestinationRule`. -/
structure DestinationRule where
  ObjectMeta : ObjectMeta
  Spec : DestinationRuleSpec
deriving DecidableEq, Inhabited

end Istio

/-- The index expression `xs[0]` on a slice: `none` is the run-time panic on an empty slice. -/
def index0 {α : Type} (xs : List α) : Option α := xs.head?

/-! ## Synthesis -/

/-- The function `findLongestString`. -/
def findLongestString (strings : List Str) : Str :=
  strings.foldl (fun mostLongStr str => if len str > len mostLongStr then str else mostLongStr) []

/-- The function `matchRoute`. -/
def matchRoute (serviceName headerKey labelVal matchedLabel : Str) : Istio.HTTPRoute :=
  { Route := [{ Destination := { Host := serviceName, Subset := matchedLabel } }],
    Match := some [{ Headers := [(headerKey, { Exact := labelVal, Prefix := [], Suffix := [], Regex := [] })] }] }

/-- The first loop of `virtualServiceMatchRoute`: `possibleRoutes` after visiting the entries of
`relatedDeployments` in list order; `none` when a call of `leveledEqual` does not return. -/
def possibleRoutesLoop (labelVal splitter : Str) : GoMap Str → List Str → Option (List Str)
  | [], possibleRoutes => some possibleRoutes
  | (k, v) :: rest, possibleRoutes =>
    match leveledEqual v labelVal splitter with
    | none => none
    | some true => possibleRoutesLoop labelVal splitter rest (possibleRoutes ++ [k])
    | some false => possibleRoutesLoop labelVal splitter rest possibleRoutes

/-- The function `virtualServiceMatchRoute`; the list `relatedDeployments` is in the order of the visit. -/
def virtualServiceMatchRoute (serviceName : Str) (relatedDeployments : GoMap Str)
    (labelVal headerKey splitter : Str) : Option (Istio.HTTPRoute × Bool) :=
  match possibleRoutesLoop labelVal splitter relatedDeployments [] with
  | none => none
  | some possibleRoutes =>
    if possibleRoutes.length > 0 then
      some (matchRoute serviceName headerKey labelVal (findLongestString possibleRoutes), true)
    else some ({ Match := none, Route := [] }, false)

/-- The loop of `VirtualService` over `availableLabels`, from the label of index `i` on; `http` is
`virtualSrv.Spec.HTTP` so far, and `relatedDeployments j` lists the entries of the map in the order in
which the call made for the label of index `j` visits them. -/
def VirtualServiceLoop (name : Str) (relatedDeployments : Nat → GoMap Str) (veHeader veSplitter : Str) :
    Nat → List Str → List Istio.HTTPRoute → Option (List Istio.HTTPRoute)
  | _, [], http => some http
  | i, label :: rest, http =>
    match virtualServiceMatchRoute name (relatedDeployments i) label veHeader veSplitter with
    | none => none
    | some (route, ok) =>
      VirtualServiceLoop name relatedDeployments veHeader veSplitter (i + 1) rest
        (if ok then http ++ [route] else http)

/-- The function `VirtualService`; `relatedDeployments i` is the map as visited for the `i`-th label,
and `none` means that the call does not return. -/
def VirtualService (name nspace : Str) (availableLabels : List Str)
    (relatedDeployments : Nat → GoMap Str) (veHeader veSplitter : Str) : Option Istio.VirtualService :=
  match VirtualServiceLoop name relatedDeployments veHeader veSplitter 0 availableLabels
      [{ Match := none, Route := [{ Destination := { Host := name, Subset := [] } }] }] with
  | none => none
  | some http =>
    some { ObjectMeta := { Name := name, Namespace := nspace },
           Spec := { Hosts := [name], HTTP := http } }

/-- The function `destinationRuleMatchSubset`. -/
def destinationRuleMatchSubset (name labelKey labelValue : Str) : Istio.Subset :=
  { Name := name, Labels := [(labelKey, labelValue)] }

/-- The function `DestinationRule`; the list `relatedDeployments` is in the order of the visit. -/
def DestinationRule (name nspace : Str) (relatedDeployments : GoMap Str) (veLabel : Str) :
    Istio.DestinationRule :=
  { ObjectMeta := { Name := name, Namespace := nspace },
    Spec :=
      { Host := name,
        Subsets := relatedDeployments.foldl
          (fun subsets e => subsets ++ [destinationRuleMatchSubset e.1 veLabel e.2]) [] } }

/-! ## Label index -/

/-- The inner loop of `FindAllRelatedDeployments`: the value of `match` after visiting the entries of
`selector` in list order, leaving at the first mismatch. -/
def selectorLoop (labels : GoMap Str) : GoMap Str → Bool
  | [] => true
  | (k, v) :: rest => if labels.get k ≠ v then false else selectorLoop labels rest

/-- The outer loop of `FindAllRelatedDeployments`, with the map built so far. -/
def relatedLoop (selector : GoMap Str) (velabel : Str) : GoMap (GoMap Str) → GoMap Str → GoMap Str
  | [], relatedDeployments => relatedDeployments
  | (dep, labels) :: rest, relatedDeployments =>
    if selectorLoop labels selector && (labels.get? velabel).isSome then
      relatedLoop selector velabel rest (relatedDeployments.set dep (labels.get velabel))
    else relatedLoop selector velabel rest relatedDeployments

/-- The function `FindAllRelatedDeployments`; both maps are visited in list order. -/
def FindAllRelatedDeployments (deployments : GoMap (GoMap Str)) (selector : GoMap Str)
    (velabel : Str) : GoMap Str :=
  relatedLoop selector velabel deployments []

/-- The function `getKeys`; the list `kv` is in the order of the visit. -/
def getKeys (kv : GoMap Bool) : List Str :=
  kv.foldl (fun keys e => keys ++ [e.1]) []

/-- The loop of `FindAllVirtualEnvLabelValues`, with `labelSet` so far. -/
def labelSetLoop (velabel : Str) : GoMap (GoMap Str) → GoMap Bool → GoMap Bool
  | [], labelSet => labelSet
  | (_, labels) :: rest, labelSet =>
    match labels.get? velabel with
    | some labelVal => labelSetLoop velabel rest (labelSet.set labelVal true)
    | none => labelSetLoop velabel rest labelSet

/-- The function `FindAllVirtualEnvLabelValues`; `visit` gives the order in which `getKeys` visits
the entries of `labelSet`. -/
def FindAllVirtualEnvLabelValues (deployments : GoMap (GoMap Str)) (velabel : Str)
    (visit : GoMap Bool → GoMap Bool) : List Str :=
  getKeys (visit (labelSetLoop velabel deployments []))

/-! ## Diff -/

/-- The function `findSubsetByName`; `none` is the nil pointer. -/
def findSubsetByName : List Istio.Subset → Str → Option Istio.Subset
  | [], _ => none
  | subset :: rest, name => if subset.Name = name then some subset else findSubsetByName rest name

/-- The loop of `IsDifferentDestinationRule` over the subsets of `spec1`. -/
def destinationRuleLoop (subsets2 : List Istio.Subset) (label : Str) : List Istio.Subset → Bool
  | [] => false
  | subset1 :: rest =>
    match findSubsetByName subsets2 subset1.Name with
    | none => true
    | some subset2 =>
      if subset1.Labels.get label ≠ subset2.Labels.get label then true
      else destinationRuleLoop subsets2 label rest

/-- The function `IsDifferentDestinationRule`. -/
def IsDifferentDestinationRule (spec1 spec2 : Istio.DestinationRuleSpec) (label : Str) : Bool :=
  if spec1.Subsets.length ≠ spec2.Subsets.length then true
  else destinationRuleLoop spec2.Subsets label spec1.Subsets

/-- The function `findMatchRoute`; `none` when an index expression `Route[0]` or `Match[0]` panics.
The operands of `&&` are evaluated left to right, the right one only when the left one is true. -/
def findMatchRoute : List Istio.HTTPRoute → Istio.HTTPRoute → Str → Option Bool
  | [], _, _ => some false
  | route :: rest, target, header =>
    match route.Match with
    | none => findMatchRoute rest target header
    | some ms =>
      match index0 route.Route, index0 target.Route with
      | some d, some dt =>
        if d.Destination.Subset = dt.Destination.Subset then
          match index0 ms, index0 (target.Match.getD []) with
          | some m, some mt =>
            if m.Headers.get header = mt.Headers.get header then some true
            else findMatchRoute rest target header
          | _, _ => none
        else findMatchRoute rest target header
      | _, _ => none

/-- The loop of `IsDifferentVirtualService` over the routes of `spec1`. -/
def virtualServiceDiffLoop (http2 : List Istio.HTTPRoute) (header : Str) : List Istio.HTTPRoute → Option Bool
  | [] => some false
  | route1 :: rest =>
    match route1.Match with
    | none => virtualServiceDiffLoop http2 header rest
    | some _ =>
      match findMatchRoute http2 route1 header with
      | none => none
      | some false => some true
      | some true => virtualServiceDiffLoop http2 header rest

/-- The function `IsDifferentVirtualService`; `none` when `findMatchRoute` panics. -/
def IsDifferentVirtualService (spec1 spec2 : Istio.VirtualServiceSpec) (header : Str) : Option Bool :=
  if spec1.HTTP.length ≠ spec2.HTTP.length then some true
  else virtualServiceDiffLoop spec2.HTTP header spec1.HTTP

/-! ## Vocabulary of the statements -/

/-- The test made on an entry of `relatedDeployments` for the label `labelVal`. -/
def leveledMatch (labelVal splitter : Str) (e : Str × Str) : Bool :=
  decide (leveledEqual e.2 labelVal splitter = some true)

/-- The shape of a conditional route made for the label `v`. -/
def IsConditionalRoute (name veHeader v : Str) (r : Istio.HTTPRoute) : Prop :=
  r.Match = some [{ Headers := [(veHeader, { Exact := v, Prefix := [], Suffix := [], Regex := [] })] }] ∧
    ∃ subset, r.Route = [{ Destination := { Host := name, Subset := subset } }]

/-- A route on which `Route[0]` and `Match[0]` are in range: it has a destination, and its match
list, when not nil, has an entry. -/
def WellFormedRoute (r : Istio.HTTPRoute) : Prop :=
  r.Route ≠ [] ∧ r.Match ≠ some []

/-- The subset `Route[0].Destination.Subset` of a route. -/
def routeSubset (r : Istio.HTTPRoute) : Option Str :=
  (index0 r.Route).map (fun d => d.Destination.Subset)

/-- The header match `Match[0].Headers[header]` of a route. -/
def routeHeader (header : Str) (r : Istio.HTTPRoute) : Option Istio.StringMatch :=
  (index0 (r.Match.getD [])).map (fun m => m.Headers.get header)

/-- Two routes with the same (subset, header match) pair. -/
def SamePair (header : Str) (r r' : Istio.HTTPRoute) : Prop :=
  routeSubset r = routeSubset r' ∧ routeHeader header r = routeHeader header r'

instance (header : Str) (r r' : Istio.HTTPRoute) : Decidable (SamePair header r r') :=
  inferInstanceAs (Decidable (_ ∧ _))

instance (r : Istio.HTTPRoute) : Decidable (WellFormedRoute r) :=
  inferInstanceAs (Decidable (_ ∧ _))

/-- The default route that `VirtualService` starts from. -/
def defaultRoute (name : Str) : Istio.HTTPRoute :=
  { Match := none, Route := [{ Destination := { Host := name, Subset := [] } }] }

/-- The (subset, header match) pairs of the conditional routes of a route list. -/
def routePairs (header : Str) (http : List Istio.HTTPRoute) :
    List (Option Str × Option Istio.StringMatch) :=
  (http.filter (fun r => decide (r.Match ≠ none))).map
    (fun r => (routeSubset r, routeHeader header r))

/-- A route with exactly one destination and, when its match list is not nil, exactly one match. -/
def SingleRoute (r : Istio.HTTPRoute) : Prop :=
  r.Route.length = 1 ∧ ∀ ms, r.Match = some ms → ms.length = 1

/-! ## Concrete inputs used in the statements -/

/-- The workloads `wA-stable ↦ prod`, `wB ↦ prod.canary`, visited in this order. -/
def relatedByName : GoMap Str :=
  [("wA-stable".toList, "prod".toList), ("wB".toList, "prod.canary".toList)]

/-- The workload label sets of the end-to-end scenario, `wA` visited before `wB`. -/
def scenarioDeployments : GoMap (GoMap Str) :=
  [("wA".toList, [("env".toList, "prod".toList)]),
   ("wB".toList, [("env".toList, "prod.canary".toList)])]

/-- One workload labelled `env = a`, without a label `app`. -/
def unlabelledDeployments : GoMap (GoMap Str) :=
  [("w".toList, [("env".toList, "a".toList)])]

/-- The selector `app = ""`. -/
def emptyValueSelector : GoMap Str := [("app".toList, [])]

/-- A policy with two match-less routes and one conditional route. -/
def narrowSpec : Istio.VirtualServiceSpec :=
  { Hosts := ["svc".toList],
    HTTP := [defaultRoute "svc".toList, defaultRoute "svc".toList,
      matchRoute "svc".toList "x-env".toList "prod".toList "wA".toList] }

/-- A policy with one match-less route and two conditional routes. -/
def wideSpec : Istio.VirtualServiceSpec :=
  { Hosts := ["svc".toList],
    HTTP := [defaultRoute "svc".toList,
      matchRoute "svc".toList "x-env".toList "prod".toList "wA".toList,
      matchRoute "svc".toList "x-env".toList "prod.canary".toList "wB".toList] }

/-- A policy whose only route has a match list that is not nil and has no entry. -/
def emptyMatchSpec : Istio.VirtualServiceSpec :=
  { Hosts := ["svc".toList],
    HTTP := [{ Match := some [], Route := [{ Destination := { Host := "svc".toList, Subset := [] } }] }] }

/-- The workloads `wA ↦ prod`, `wB ↦ prod.canary`. -/
def relatedScenario : GoMap Str :=
  [("wA".toList, "prod".toList), ("wB".toList, "prod.canary".toList)]

/-- One workload whose label `env` is present with the empty value. -/
def emptyValueDeployments : GoMap (GoMap Str) :=
  [("w".toList, [("env".toList, [])])]

/-- The policy of the end-to-end scenario when `wA` is visited before `wB`. -/
def scenarioPolicy : Istio.VirtualService :=
  { ObjectMeta := { Name := "svc".toList, Namespace := "ns".toList },
    Spec :=
      { Hosts := ["svc".toList],
        HTTP := [defaultRoute "svc".toList,
          matchRoute "svc".toList "x-env".toList "prod".toList "wA".toList,
          matchRoute "svc".toList "x-env".toList "prod.canary".toList "wB".toList] } }

end Shared

namespace Shared

/-! ## Lemmas on the `strings` functions -/

theorem Index_cons (a : Char) (t sub : Str) :
    Index (a :: t) sub =
      if sub.isPrefixOf (a :: t) then 0
      else if 0 ≤ Index t sub then Index t sub + 1 else -1 := by
  rw [Index]

theorem LastIndex_cons (a : Char) (t sub : Str) :
    LastIndex (a :: t) sub =
      if 0 ≤ LastIndex t sub then LastIndex t sub + 1
      else if sub.isPrefixOf (a :: t) then 0 else -1 := by
  rw [LastIndex]

theorem Index_cons_nonneg (a : Char) (t sub : Str) :
    0 ≤ Index (a :: t) sub ↔ (sub.isPrefixOf (a :: t) = true ∨ 0 ≤ Index t sub) := by
  rw [Index_cons]
  by_cases hp : sub.isPrefixOf (a :: t) = true
  · simp [hp]
  · by_cases hr : 0 ≤ Index t sub
    · simp [hp, hr]; omega
    · simp [hp, hr]

theorem LastIndex_cons_nonneg (a : Char) (t sub : Str) :
    0 ≤ LastIndex (a :: t) sub ↔ (sub.isPrefixOf (a :: t) = true ∨ 0 ≤ LastIndex t sub) := by
  rw [LastIndex_cons]
  by_cases hr : 0 ≤ LastIndex t sub
  · simp [hr]; omega
  · by_cases hp : sub.isPrefixOf (a :: t) = true
    · simp [hp, hr]
    · simp [hp, hr]

theorem Index_nonneg_iff_LastIndex (s sub : Str) : 0 ≤ Index s sub ↔ 0 ≤ LastIndex s sub := by
  induction s with
  | nil => simp [Index, LastIndex]
  | cons a t ih => rw [Index_cons_nonneg, LastIndex_cons_nonneg, ih]

theorem Contains_iff_LastIndex (s sub : Str) : Contains s sub = true ↔ 0 ≤ LastIndex s sub := by
  simp [Contains, Index_nonneg_iff_LastIndex]

theorem LastIndex_nil (s : Str) : LastIndex s [] = (s.length : Int) := by
  induction s with
  | nil => simp [LastIndex]
  | cons a t ih =>
    rw [LastIndex_cons, ih]
    simp

theorem LastIndex_bound (s sub : Str) (h : 0 ≤ LastIndex s sub) :
    (LastIndex s sub).toNat + sub.length ≤ s.length := by
  induction s with
  | nil =>
    unfold LastIndex at h ⊢
    by_cases hs : sub = []
    · simp [hs]
    · simp [hs] at h
  | cons a t ih =>
    rw [LastIndex_cons] at h ⊢
    by_cases hr : 0 ≤ LastIndex t sub
    · have := ih hr
      simp only [hr, if_true] at h ⊢
      simp only [List.length_cons]
      omega
    · by_cases hp : sub.isPrefixOf (a :: t) = true
      · simp only [hr, hp, if_true, if_false]
        have hl := (List.isPrefixOf_iff_prefix.mp hp).length_le
        simpa using hl
      · simp [hr, hp] at h

theorem LastIndex_single_neg (c : Char) (s : Str) (h : ¬ 0 ≤ LastIndex s [c]) : c ∉ s := by
  induction s with
  | nil => simp
  | cons a t ih =>
    rw [LastIndex_cons_nonneg] at h
    have h1 : ¬ ([c].isPrefixOf (a :: t) = true) := fun hp => h (Or.inl hp)
    have h2 : ¬ 0 ≤ LastIndex t [c] := fun hp => h (Or.inr hp)
    have hca : ¬ c = a := by
      intro hca
      apply h1
      simp [List.isPrefixOf, hca]
    simp only [List.mem_cons, not_or]
    exact ⟨hca, ih h2⟩

theorem LastIndex_single_split (c : Char) (s : Str) (h : 0 ≤ LastIndex s [c]) :
    ∃ post, s = s.take (LastIndex s [c]).toNat ++ c :: post ∧ c ∉ post := by
  induction s with
  | nil => simp [LastIndex] at h
  | cons a t ih =>
    rw [LastIndex_cons]
    by_cases hr : 0 ≤ LastIndex t [c]
    · obtain ⟨post, hpost, hc⟩ := ih hr
      refine ⟨post, ?_, hc⟩
      simp only [hr, if_true]
      have hn : (LastIndex t [c] + 1).toNat = (LastIndex t [c]).toNat + 1 := by omega
      rw [hn, List.take_succ_cons, List.cons_append, ← hpost]
    · have hp : [c].isPrefixOf (a :: t) = true := by
        rcases (LastIndex_cons_nonneg a t [c]).mp h with hp | hp
        · exact hp
        · exact absurd hp hr
      have hca : c = a := by simpa [List.isPrefixOf] using hp
      refine ⟨t, ?_, LastIndex_single_neg c t hr⟩
      rw [if_neg hr, if_pos hp]
      simp [hca]

/-! ## Lemmas on `leveledEqual` -/

theorem leveledEqualLoop_total (target splitter : Str) (hs : splitter ≠ []) :
    ∀ (fuel : Nat) (source : Str), source.length < fuel →
      ∃ b, leveledEqualLoop fuel source target splitter = some b := by
  intro fuel
  induction fuel with
  | zero => intro source h; omega
  | succ n ih =>
    intro source h
    unfold leveledEqualLoop
    by_cases he : source = target
    · exact ⟨true, by simp [he]⟩
    · by_cases hc : Contains source splitter = true
      · simp only [he, hc, if_true, if_false]
        apply ih
        have hb := LastIndex_bound source splitter ((Contains_iff_LastIndex _ _).mp hc)
        have hpos : 0 < splitter.length := List.length_pos.mpr hs
        rw [List.length_take]
        omega
      · exact ⟨false, by simp [he, hc]⟩

theorem leveledEqualLoop_fuel (target splitter : Str) :
    ∀ (fuel more : Nat) (source : Str) (b : Bool),
      leveledEqualLoop fuel source target splitter = some b →
      leveledEqualLoop (fuel + more) source target splitter = some b := by
  intro fuel
  induction fuel with
  | zero => intro more source b h; simp [leveledEqualLoop] at h
  | succ n ih =>
    intro more source b h
    have hn : n + 1 + more = (n + more) + 1 := by omega
    rw [hn]
    unfold leveledEqualLoop at h ⊢
    by_cases he : source = target
    · simpa [he] using h
    · by_cases hc : Contains source splitter = true
      · simp only [he, hc, if_true, if_false] at h ⊢
        exact ih more _ b h
      · simpa [he, hc] using h

theorem leveledEqualLoop_diverges (source target : Str) (h : source ≠ target) :
    ∀ fuel : Nat, leveledEqualLoop fuel source target [] = none := by
  intro fuel
  induction fuel with
  | zero => rfl
  | succ n ih =>
    unfold leveledEqualLoop
    have hc : Contains source [] = true := by
      rw [Contains_iff_LastIndex, LastIndex_nil]; omega
    simp only [h, hc, if_true, if_false, LastIndex_nil, Int.toNat_ofNat, List.take_length]
    exact ih

theorem leveledEqual_total (source target splitter : Str) (hs : splitter ≠ []) :
    ∃ b, leveledEqual source target splitter = some b :=
  leveledEqualLoop_total target splitter hs _ source (Nat.lt_succ_self _)

theorem ancestor_step (target pre post : Str) (c : Char) (hc : c ∉ post)
    (hne : pre ++ c :: post ≠ target) :
    (pre = target ∨ target ++ [c] <+: pre) ↔
      (pre ++ c :: post = target ∨ target ++ [c] <+: pre ++ c :: post) := by
  constructor
  · rintro (h | h)
    · exact Or.inr ⟨post, by simp [h]⟩
    · exact Or.inr (h.trans (List.prefix_append _ _))
  · rintro (h | ⟨r, hr⟩)
    · exact absurd h hne
    · have hr2 : target ++ c :: r = pre ++ c :: post := by simpa using hr
      rcases List.append_eq_append_iff.mp hr2 with ⟨m, hm1, hm2⟩ | ⟨m, hm1, hm2⟩
      · cases m with
        | nil => exact Or.inl (by simpa using hm1)
        | cons x m2 =>
          have hx : c = x := by
            have := congrArg List.head? hm2
            simpa using this
          exact Or.inr ⟨m2, by simp [hm1, hx]⟩
      · cases m with
        | nil => exact Or.inl (by simpa using hm1.symm)
        | cons x m2 =>
          exfalso
          apply hc
          have hp : post = m2 ++ c :: r := by
            have := congrArg List.tail hm2
            simpa using this
          simp [hp]

theorem leveledEqualLoop_single (target : Str) (c : Char) :
    ∀ (fuel : Nat) (source : Str), source.length < fuel →
      (leveledEqualLoop fuel source target [c] = some true ↔
        (source = target ∨ target ++ [c] <+: source)) := by
  intro fuel
  induction fuel with
  | zero => intro source h; omega
  | succ n ih =>
    intro source h
    rw [leveledEqualLoop]
    by_cases he : source = target
    · simp [he]
    · by_cases hc : Contains source [c] = true
      · simp only [he, hc, if_true, if_false]
        have hnn := (Contains_iff_LastIndex _ _).mp hc
        obtain ⟨post, hpost, hcp⟩ := LastIndex_single_split c source hnn
        have hb := LastIndex_bound source [c] hnn
        have hlen : (source.take (LastIndex source [c]).toNat).length < n := by
          rw [List.length_take]
          simp only [List.length_singleton] at hb
          omega
        rw [ih _ hlen]
        have hne : source.take (LastIndex source [c]).toNat ++ c :: post ≠ target := by
          rw [← hpost]; exact he
        have key := ancestor_step target _ post c hcp hne
        rw [← hpost] at key
        simpa [he] using key
      · simp only [he, hc, if_false, false_or]
        constructor
        · intro h; simp at h
        · intro hp
          exfalso
          have hneg : ¬ 0 ≤ LastIndex source [c] := fun h0 =>
            hc ((Contains_iff_LastIndex _ _).mpr h0)
          apply LastIndex_single_neg c source hneg
          exact hp.subset (by simp)

/-! ## Lemmas on the synthesis functions -/

theorem foldl_append_singleton {α β : Type} (f : α → β) (l : List α) (acc : List β) :
    l.foldl (fun xs e => xs ++ [f e]) acc = acc ++ l.map f := by
  induction l generalizing acc with
  | nil => simp
  | cons a t ih => simp [ih]

theorem possibleRoutesLoop_eq (labelVal splitter : Str) (hs : splitter ≠ []) :
    ∀ (m : GoMap Str) (acc : List Str),
      possibleRoutesLoop labelVal splitter m acc =
        some (acc ++ (m.filter (leveledMatch labelVal splitter)).map Prod.fst) := by
  intro m
  induction m with
  | nil => intro acc; simp [possibleRoutesLoop]
  | cons e t ih =>
    intro acc
    obtain ⟨k, v⟩ := e
    obtain ⟨b, hb⟩ := leveledEqual_total v labelVal splitter hs
    cases b with
    | true => simp [possibleRoutesLoop, hb, ih, leveledMatch]
    | false => simp [possibleRoutesLoop, hb, ih, leveledMatch]

theorem virtualServiceMatchRoute_eq (serviceName : Str) (m : GoMap Str)
    (labelVal headerKey splitter : Str) (hs : splitter ≠ []) :
    virtualServiceMatchRoute serviceName m labelVal headerKey splitter =
      if m.any (leveledMatch labelVal splitter) then
        some (matchRoute serviceName headerKey labelVal
          (findLongestString ((m.filter (leveledMatch labelVal splitter)).map Prod.fst)), true)
      else some ({ Match := none, Route := [] }, false) := by
  unfold virtualServiceMatchRoute
  rw [possibleRoutesLoop_eq labelVal splitter hs]
  by_cases h : m.any (leveledMatch labelVal splitter) = true
  · have hpos : 0 < (m.filter (leveledMatch labelVal splitter)).length := by
      obtain ⟨e, he, hq⟩ := List.any_eq_true.mp h
      exact List.length_pos_of_mem (List.mem_filter.mpr ⟨he, hq⟩)
    simp [h, hpos]
  · have hz : m.filter (leveledMatch labelVal splitter) = [] := by
      rw [List.filter_eq_nil_iff]
      intro e he hq
      exact h (List.any_eq_true.mpr ⟨e, he, hq⟩)
    simp [h, hz]

theorem any_perm {α : Type} (p : α → Bool) {l₁ l₂ : List α} (h : l₁.Perm l₂) :
    l₁.any p = l₂.any p := by
  rw [Bool.eq_iff_iff, List.any_eq_true, List.any_eq_true]
  constructor
  · rintro ⟨e, he, hp⟩; exact ⟨e, h.subset he, hp⟩
  · rintro ⟨e, he, hp⟩; exact ⟨e, h.symm.subset he, hp⟩

theorem VirtualServiceLoop_shape (name : Str) (m : GoMap Str) (relatedDeployments : Nat → GoMap Str)
    (veHeader veSplitter : Str) (hs : veSplitter ≠ [])
    (hperm : ∀ i, (relatedDeployments i).Perm m) :
    ∀ (labels : List Str) (i : Nat) (http : List Istio.HTTPRoute),
      ∃ conditional,
        VirtualServiceLoop name relatedDeployments veHeader veSplitter i labels http =
            some (http ++ conditional) ∧
          List.Forall₂ (IsConditionalRoute name veHeader)
            (labels.filter (fun v => m.any (leveledMatch v veSplitter))) conditional := by
  intro labels
  induction labels with
  | nil => intro i http; exact ⟨[], by simp [VirtualServiceLoop]⟩
  | cons v rest ih =>
    intro i http
    rw [VirtualServiceLoop, virtualServiceMatchRoute_eq _ _ _ _ _ hs, any_perm _ (hperm i)]
    by_cases h : m.any (leveledMatch v veSplitter) = true
    · have hf : (v :: rest).filter (fun v => m.any (leveledMatch v veSplitter)) =
          v :: rest.filter (fun v => m.any (leveledMatch v veSplitter)) := by
        simp [List.filter_cons, h]
      obtain ⟨conditional, h1, h2⟩ := ih (i + 1)
        (http ++ [matchRoute name veHeader v (findLongestString
          (((relatedDeployments i).filter (leveledMatch v veSplitter)).map Prod.fst))])
      refine ⟨matchRoute name veHeader v (findLongestString
          (((relatedDeployments i).filter (leveledMatch v veSplitter)).map Prod.fst)) ::
            conditional, ?_, ?_⟩
      · simp only [h, if_true]
        rw [h1]
        simp
      · rw [hf]
        exact List.Forall₂.cons ⟨rfl, _, rfl⟩ h2
    · have hf : (v :: rest).filter (fun v => m.any (leveledMatch v veSplitter)) =
          rest.filter (fun v => m.any (leveledMatch v veSplitter)) := by
        simp [List.filter_cons, h]
      obtain ⟨conditional, h1, h2⟩ := ih (i + 1) http
      refine ⟨conditional, ?_, ?_⟩
      · simp only [h]
        simpa using h1
      · rw [hf]
        exact h2

/-! ## Lemmas on the diff functions -/

theorem findMatchRoute_spec (header : Str) (target : Istio.HTTPRoute)
    (ht : WellFormedRoute target) (htm : target.Match ≠ none) :
    ∀ routes : List Istio.HTTPRoute, (∀ r ∈ routes, WellFormedRoute r) →
      ∃ b, findMatchRoute routes target header = some b ∧
        (b = true ↔ ∃ r ∈ routes, r.Match ≠ none ∧ SamePair header r target) := by
  obtain ⟨tm, tr⟩ := target
  cases tm with
  | none => exact absurd rfl htm
  | some tms =>
    cases tms with
    | nil => exact absurd rfl ht.2
    | cons mt tms2 =>
      cases tr with
      | nil => exact absurd rfl ht.1
      | cons dt tr2 =>
        intro routes
        induction routes with
        | nil => intro _; exact ⟨false, by simp [findMatchRoute]⟩
        | cons route rest ih =>
          intro hwf
          obtain ⟨b, hb, hiff⟩ := ih (fun r hr => hwf r (List.mem_cons_of_mem _ hr))
          have hw := hwf route (List.mem_cons_self _ _)
          obtain ⟨rm, rr⟩ := route
          cases rm with
          | none =>
            refine ⟨b, by simpa [findMatchRoute] using hb, ?_⟩
            rw [hiff]
            simp
          | some ms =>
            cases ms with
            | nil => exact absurd rfl hw.2
            | cons m ms2 =>
              cases rr with
              | nil => exact absurd rfl hw.1
              | cons d rr2 =>
                by_cases h1 : d.Destination.Subset = dt.Destination.Subset
                · by_cases h2 : m.Headers.get header = mt.Headers.get header
                  · refine ⟨true, by simp [findMatchRoute, index0, h1, h2], ?_⟩
                    simp [SamePair, routeSubset, routeHeader, index0, h1, h2]
                  · refine ⟨b, by simpa [findMatchRoute, index0, h1, h2] using hb, ?_⟩
                    rw [hiff]
                    simp [SamePair, routeSubset, routeHeader, index0, h1, h2]
                · refine ⟨b, by simpa [findMatchRoute, index0, h1] using hb, ?_⟩
                  rw [hiff]
                  simp [SamePair, routeSubset, routeHeader, index0, h1]

theorem virtualServiceDiffLoop_spec (header : Str) (http2 : List Istio.HTTPRoute)
    (h2 : ∀ r ∈ http2, WellFormedRoute r) :
    ∀ l : List Istio.HTTPRoute, (∀ r ∈ l, WellFormedRoute r) →
      ∃ b, virtualServiceDiffLoop http2 header l = some b ∧
        (b = true ↔ ∃ r ∈ l, r.Match ≠ none ∧
          ¬ ∃ r' ∈ http2, r'.Match ≠ none ∧ SamePair header r' r) := by
  intro l
  induction l with
  | nil => intro _; exact ⟨false, by simp [virtualServiceDiffLoop]⟩
  | cons route1 rest ih =>
    intro hwf
    obtain ⟨b, hb, hiff⟩ := ih (fun r hr => hwf r (List.mem_cons_of_mem _ hr))
    have hw := hwf route1 (List.mem_cons_self _ _)
    by_cases hm : route1.Match = none
    · refine ⟨b, ?_, ?_⟩
      · rw [virtualServiceDiffLoop]; simp only [hm]; exact hb
      · rw [hiff]; simp [hm]
    · obtain ⟨f, hf, hfiff⟩ := findMatchRoute_spec header route1 hw hm http2 h2
      obtain ⟨ms, hms⟩ := Option.ne_none_iff_exists'.mp hm
      cases f with
      | true =>
        have hex := hfiff.mp rfl
        refine ⟨b, ?_, ?_⟩
        · rw [virtualServiceDiffLoop]; simp only [hms, hf]; exact hb
        · rw [hiff]
          constructor
          · rintro ⟨r, hr, hrest⟩; exact ⟨r, List.mem_cons_of_mem _ hr, hrest⟩
          · rintro ⟨r, hr, hrm, hno⟩
            rcases List.mem_cons.mp hr with rfl | hr
            · exact absurd hex hno
            · exact ⟨r, hr, hrm, hno⟩
      | false =>
        have hno : ¬ ∃ r' ∈ http2, r'.Match ≠ none ∧ SamePair header r' route1 := by
          intro hex
          have := hfiff.mpr hex
          simp at this
        refine ⟨true, ?_, ?_⟩
        · rw [virtualServiceDiffLoop]; simp only [hms, hf]
        · simp only [true_iff]
          exact ⟨route1, List.mem_cons_self _ _, hm, hno⟩

theorem findSubsetByName_self (subsets : List Istio.Subset)
    (hn : (subsets.map (fun x => x.Name)).Nodup) (sub : Istio.Subset) (hmem : sub ∈ subsets) :
    findSubsetByName subsets sub.Name = some sub := by
  induction subsets with
  | nil => simp at hmem
  | cons x rest ih =>
    rw [List.map_cons, List.nodup_cons] at hn
    rw [findSubsetByName]
    rcases List.mem_cons.mp hmem with rfl | hr
    · simp
    · have hne : x.Name ≠ sub.Name := by
        intro heq
        apply hn.1
        rw [heq]
        exact List.mem_map.mpr ⟨sub, hr, rfl⟩
      simp only [hne, if_false]
      exact ih hn.2 hr

theorem destinationRuleLoop_self (subsets : List Istio.Subset) (label : Str)
    (hn : (subsets.map (fun x => x.Name)).Nodup) :
    ∀ l : List Istio.Subset, (∀ x ∈ l, x ∈ subsets) → destinationRuleLoop subsets label l = false := by
  intro l
  induction l with
  | nil => intro _; rfl
  | cons x rest ih =>
    intro hl
    rw [destinationRuleLoop, findSubsetByName_self subsets hn x (hl x (List.mem_cons_self _ _))]
    simp only [ne_eq, not_true_eq_false, if_false]
    exact ih (fun y hy => hl y (List.mem_cons_of_mem _ hy))

theorem DestinationRule_subsets (name nspace : Str) (relatedDeployments : GoMap Str) (veLabel : Str) :
    (DestinationRule name nspace relatedDeployments veLabel).Spec.Subsets =
      relatedDeployments.map (fun e => destinationRuleMatchSubset e.1 veLabel e.2) := by
  simp [DestinationRule, foldl_append_singleton]

theorem DestinationRule_names (name nspace : Str) (relatedDeployments : GoMap Str) (veLabel : Str) :
    (DestinationRule name nspace relatedDeployments veLabel).Spec.Subsets.map (fun x => x.Name) =
      relatedDeployments.keys := by
  rw [DestinationRule_subsets]
  simp [GoMap.keys, destinationRuleMatchSubset, List.map_map, Function.comp_def]

/-! ## Lemmas on the label index -/

theorem GoMap.mem_keys_set {V : Type} (m : GoMap V) (k : Str) (v : V) (x : Str) :
    x ∈ (m.set k v).keys ↔ x = k ∨ x ∈ m.keys := by
  induction m with
  | nil => simp [GoMap.set, GoMap.keys]
  | cons e rest ih =>
    obtain ⟨k', v'⟩ := e
    rw [GoMap.set]
    by_cases h : k' = k
    · simp only [h, if_true]
      have hcons1 : GoMap.keys ((k, v) :: rest) = k :: GoMap.keys rest := rfl
      have hcons2 : GoMap.keys ((k, v') :: rest) = k :: GoMap.keys rest := rfl
      rw [hcons1, hcons2, List.mem_cons]
      constructor
      · rintro (h1 | h1)
        · exact Or.inl h1
        · exact Or.inr (Or.inr h1)
      · rintro (h1 | h1 | h1)
        · exact Or.inl h1
        · exact Or.inl h1
        · exact Or.inr h1
    · simp only [h, if_false]
      have hcons : GoMap.keys ((k', v') :: GoMap.set rest k v) = k' :: GoMap.keys (GoMap.set rest k v) := rfl
      have hcons2 : GoMap.keys ((k', v') :: rest) = k' :: GoMap.keys rest := rfl
      rw [hcons, hcons2, List.mem_cons, List.mem_cons, ih]
      constructor
      · rintro (h1 | h1 | h1)
        · exact Or.inr (Or.inl h1)
        · exact Or.inl h1
        · exact Or.inr (Or.inr h1)
      · rintro (h1 | h1 | h1)
        · exact Or.inr (Or.inl h1)
        · exact Or.inl h1
        · exact Or.inr (Or.inr h1)

theorem GoMap.nodup_keys_set {V : Type} (m : GoMap V) (k : Str) (v : V) (h : m.keys.Nodup) :
    (m.set k v).keys.Nodup := by
  induction m with
  | nil => simp [GoMap.set, GoMap.keys]
  | cons e rest ih =>
    obtain ⟨k', v'⟩ := e
    have hcons2 : GoMap.keys ((k', v') :: rest) = k' :: GoMap.keys rest := rfl
    have h' : k' ∉ GoMap.keys rest ∧ (GoMap.keys rest).Nodup := by
      rw [hcons2, List.nodup_cons] at h
      exact h
    rw [GoMap.set]
    by_cases hk : k' = k
    · simp only [hk, if_true]
      have hcons3 : GoMap.keys ((k, v) :: rest) = k :: GoMap.keys rest := rfl
      rw [hcons3, List.nodup_cons, ← hk]
      exact h'
    · simp only [hk, if_false]
      have hcons : GoMap.keys ((k', v') :: GoMap.set rest k v) = k' :: GoMap.keys (GoMap.set rest k v) := rfl
      rw [hcons, List.nodup_cons]
      refine ⟨?_, ih h'.2⟩
      rw [GoMap.mem_keys_set]
      rintro (h1 | h1)
      · exact hk h1
      · exact h'.1 h1

theorem labelSetLoop_keys (velabel : Str) :
    ∀ (deployments : GoMap (GoMap Str)) (acc : GoMap Bool), acc.keys.Nodup →
      (labelSetLoop velabel deployments acc).keys.Nodup ∧
        ∀ x, x ∈ (labelSetLoop velabel deployments acc).keys ↔
          (x ∈ acc.keys ∨ ∃ e ∈ deployments, e.2.get? velabel = some x) := by
  intro deployments
  induction deployments with
  | nil => intro acc h; simp [labelSetLoop, h]
  | cons e rest ih =>
    intro acc h
    obtain ⟨dep, labels⟩ := e
    rw [labelSetLoop]
    cases hl : GoMap.get? labels velabel with
    | none =>
      simp only
      obtain ⟨h1, h2⟩ := ih acc h
      refine ⟨h1, fun x => ?_⟩
      rw [h2]
      simp [hl]
    | some labelVal =>
      simp only
      obtain ⟨h1, h2⟩ := ih (acc.set labelVal true) (GoMap.nodup_keys_set acc labelVal true h)
      refine ⟨h1, fun x => ?_⟩
      rw [h2, GoMap.mem_keys_set]
      simp only [List.mem_cons, exists_eq_or_imp, hl, Option.some.injEq]
      constructor
      · rintro ((h3 | h3) | h3)
        · exact Or.inr (Or.inl h3.symm)
        · exact Or.inl h3
        · exact Or.inr (Or.inr h3)
      · rintro (h3 | h3 | h3)
        · exact Or.inl (Or.inr h3)
        · exact Or.inl (Or.inl h3.symm)
        · exact Or.inr h3

theorem getKeys_eq (kv : GoMap Bool) : getKeys kv = kv.keys := by
  simp [getKeys, GoMap.keys, foldl_append_singleton]

theorem VirtualServiceLoop_wellFormed (name : Str) (relatedDeployments : Nat → GoMap Str)
    (veHeader veSplitter : Str) (hs : veSplitter ≠ []) :
    ∀ (labels : List Str) (i : Nat) (http : List Istio.HTTPRoute),
      (∀ r ∈ http, WellFormedRoute r) →
      ∃ out, VirtualServiceLoop name relatedDeployments veHeader veSplitter i labels http = some out ∧
        ∀ r ∈ out, WellFormedRoute r := by
  intro labels
  induction labels with
  | nil => intro i http h; exact ⟨http, by simp [VirtualServiceLoop], h⟩
  | cons v rest ih =>
    intro i http h
    rw [VirtualServiceLoop, virtualServiceMatchRoute_eq _ _ _ _ _ hs]
    by_cases hm : (relatedDeployments i).any (leveledMatch v veSplitter) = true
    · simp only [hm, if_true]
      apply ih
      intro r hr
      rcases List.mem_append.mp hr with hr | hr
      · exact h r hr
      · rw [List.mem_singleton] at hr
        rw [hr]
        simp [WellFormedRoute, matchRoute]
    · simp only [hm]
      exact ih (i + 1) http h

theorem IsDifferentVirtualService_self (spec : Istio.VirtualServiceSpec) (header : Str)
    (h : ∀ r ∈ spec.HTTP, WellFormedRoute r) :
    IsDifferentVirtualService spec spec header = some false := by
  obtain ⟨b, hb, hiff⟩ := virtualServiceDiffLoop_spec header spec.HTTP h spec.HTTP h
  have hbf : b = false := by
    cases b with
    | false => rfl
    | true =>
      obtain ⟨r, hr, hrm, hno⟩ := hiff.mp rfl
      exact absurd ⟨r, hr, hrm, rfl, rfl⟩ hno
  simp [IsDifferentVirtualService, hb, hbf]

/-! ## Further lemmas on selection, synthesis and diff -/

theorem len_cons (c : Char) (s : Str) : len (c :: s) = len s + c.utf8Size := by
  simp [len, String.utf8ByteSize, String.utf8ByteSize.go]

theorem len_eq_zero (s : Str) (h : len s = 0) : s = [] := by
  cases s with
  | nil => rfl
  | cons c t =>
    rw [len_cons] at h
    have := Char.utf8Size_pos c
    omega

theorem longest_foldl (l : List Str) :
    ∀ acc : Str,
      (l.foldl (fun mostLongStr str => if len str > len mostLongStr then str else mostLongStr) acc
          = acc ∧ ∀ x ∈ l, len x ≤ len acc) ∨
        ∃ pre post,
          l = pre ++
            l.foldl (fun mostLongStr str => if len str > len mostLongStr then str else mostLongStr)
              acc :: post ∧
          (∀ x ∈ pre, len x <
            len (l.foldl
              (fun mostLongStr str => if len str > len mostLongStr then str else mostLongStr) acc)) ∧
          (∀ x ∈ post, len x ≤
            len (l.foldl
              (fun mostLongStr str => if len str > len mostLongStr then str else mostLongStr) acc)) ∧
          len acc <
            len (l.foldl
              (fun mostLongStr str => if len str > len mostLongStr then str else mostLongStr) acc) := by
  induction l with
  | nil => intro acc; exact Or.inl ⟨rfl, by simp⟩
  | cons a t ih =>
    intro acc
    rw [List.foldl_cons]
    by_cases h : len a > len acc
    · rw [if_pos h]
      rcases ih a with ⟨h1, h2⟩ | ⟨pre, post, h1, h2, h3, h4⟩
      · refine Or.inr ⟨[], t, ?_, ?_, ?_, ?_⟩
        · rw [h1]; rfl
        · simp
        · rw [h1]; exact h2
        · rw [h1]; exact h
      · refine Or.inr ⟨a :: pre, post, ?_, ?_, h3, ?_⟩
        · rw [List.cons_append, ← h1]
        · intro x hx
          rcases List.mem_cons.mp hx with rfl | hx
          · exact h4
          · exact h2 x hx
        · omega
    · rw [if_neg h]
      rcases ih acc with ⟨h1, h2⟩ | ⟨pre, post, h1, h2, h3, h4⟩
      · refine Or.inl ⟨h1, ?_⟩
        intro x hx
        rcases List.mem_cons.mp hx with rfl | hx
        · omega
        · exact h2 x hx
      · refine Or.inr ⟨a :: pre, post, ?_, ?_, h3, h4⟩
        · rw [List.cons_append, ← h1]
        · intro x hx
          rcases List.mem_cons.mp hx with rfl | hx
          · omega
          · exact h2 x hx

theorem findLongestString_first_max (l : List Str) (hl : l ≠ []) :
    ∃ pre post, l = pre ++ findLongestString l :: post ∧
      (∀ x ∈ pre, len x < len (findLongestString l)) ∧
      (∀ x ∈ post, len x ≤ len (findLongestString l)) := by
  unfold findLongestString
  rcases longest_foldl l [] with ⟨h1, h2⟩ | ⟨pre, post, h1, h2, h3, _⟩
  · cases l with
    | nil => exact absurd rfl hl
    | cons a t =>
      have ha : a = [] := len_eq_zero a (by
        have := h2 a (List.mem_cons_self _ _)
        have h0 : len ([] : Str) = 0 := rfl
        omega)
      refine ⟨[], t, ?_, by simp, ?_⟩
      · rw [h1, ha]; rfl
      · rw [h1]
        intro x hx
        exact h2 x (List.mem_cons_of_mem _ hx)
  · exact ⟨pre, post, h1, h2, h3⟩

theorem findLongestString_mem (l : List Str) (hl : l ≠ []) : findLongestString l ∈ l := by
  obtain ⟨pre, post, h, _, _⟩ := findLongestString_first_max l hl
  have hm : findLongestString l ∈ pre ++ findLongestString l :: post := by simp
  rw [← h] at hm
  exact hm

theorem possibleRoutesLoop_some (labelVal splitter : Str) :
    ∀ (m : GoMap Str) (acc out : List Str),
      possibleRoutesLoop labelVal splitter m acc = some out →
      out = acc ++ (m.filter (leveledMatch labelVal splitter)).map Prod.fst := by
  intro m
  induction m with
  | nil => intro acc out h; simpa [possibleRoutesLoop] using h.symm
  | cons e t ih =>
    intro acc out h
    obtain ⟨k, v⟩ := e
    rw [possibleRoutesLoop] at h
    cases hb : leveledEqual v labelVal splitter with
    | none => rw [hb] at h; simp at h
    | some b =>
      cases b with
      | true =>
        rw [hb] at h
        have := ih _ _ h
        simp [this, leveledMatch, hb]
      | false =>
        rw [hb] at h
        have := ih _ _ h
        simp [this, leveledMatch, hb]

theorem virtualServiceMatchRoute_some (serviceName : Str) (m : GoMap Str)
    (labelVal headerKey splitter : Str) (route : Istio.HTTPRoute)
    (h : virtualServiceMatchRoute serviceName m labelVal headerKey splitter = some (route, true)) :
    ∃ sub val, route = matchRoute serviceName headerKey labelVal sub ∧ (sub, val) ∈ m ∧
      leveledEqual val labelVal splitter = some true := by
  unfold virtualServiceMatchRoute at h
  cases hp : possibleRoutesLoop labelVal splitter m [] with
  | none => rw [hp] at h; simp at h
  | some names =>
    rw [hp] at h
    have hn := possibleRoutesLoop_some labelVal splitter m [] names hp
    simp only [List.nil_append] at hn
    by_cases hl : names.length > 0
    · simp only [hl, if_true, Option.some.injEq, Prod.mk.injEq, and_true] at h
      have hne : names ≠ [] := List.length_pos.mp hl
      have hmem := findLongestString_mem names hne
      rw [hn] at hmem
      obtain ⟨e, he, hsub⟩ := List.mem_map.mp hmem
      obtain ⟨hem, hq⟩ := List.mem_filter.mp he
      refine ⟨e.1, e.2, ?_, hem, ?_⟩
      · rw [← h, hsub, hn]
      · simpa [leveledMatch] using hq
    · simp [hl] at h

theorem VirtualServiceLoop_pairs (name : Str) (relatedDeployments : Nat → GoMap Str)
    (veHeader veSplitter : Str) :
    ∀ (labels : List Str) (i : Nat) (http out : List Istio.HTTPRoute),
      VirtualServiceLoop name relatedDeployments veHeader veSplitter i labels http = some out →
      ∃ subs : List (Str × Str),
        out = http ++ subs.map (fun x => matchRoute name veHeader x.1 x.2) ∧
        (subs.map Prod.fst).Sublist labels ∧
        ∀ x ∈ subs, ∃ j val, (x.2, val) ∈ relatedDeployments j ∧
          leveledEqual val x.1 veSplitter = some true := by
  intro labels
  induction labels with
  | nil =>
    intro i http out h
    refine ⟨[], ?_, by simp, by simp⟩
    simpa [VirtualServiceLoop] using h.symm
  | cons v rest ih =>
    intro i http out h
    rw [VirtualServiceLoop] at h
    cases hm : virtualServiceMatchRoute name (relatedDeployments i) v veHeader veSplitter with
    | none => rw [hm] at h; simp at h
    | some res =>
      obtain ⟨route, ok⟩ := res
      rw [hm] at h
      cases ok with
      | true =>
        simp only [if_true] at h
        obtain ⟨sub, val, hr, hmem, hle⟩ :=
          virtualServiceMatchRoute_some name _ v veHeader veSplitter route hm
        obtain ⟨subs, h1, h2, h3⟩ := ih _ _ _ h
        refine ⟨(v, sub) :: subs, ?_, ?_, ?_⟩
        · rw [h1, hr]; simp
        · simpa using h2
        · intro x hx
          rcases List.mem_cons.mp hx with rfl | hx
          · exact ⟨i, val, hmem, hle⟩
          · exact h3 x hx
      | false =>
        simp only [Bool.false_eq_true, if_false] at h
        obtain ⟨subs, h1, h2, h3⟩ := ih _ _ _ h
        exact ⟨subs, h1, h2.trans (List.sublist_cons_self _ _), h3⟩

theorem VirtualService_pairs (name nspace : Str) (availableLabels : List Str)
    (relatedDeployments : Nat → GoMap Str) (veHeader veSplitter : Str) (p : Istio.VirtualService)
    (h : VirtualService name nspace availableLabels relatedDeployments veHeader veSplitter = some p) :
    ∃ subs : List (Str × Str),
      p.Spec.HTTP = defaultRoute name :: subs.map (fun x => matchRoute name veHeader x.1 x.2) ∧
      (subs.map Prod.fst).Sublist availableLabels ∧
      ∀ x ∈ subs, ∃ j val, (x.2, val) ∈ relatedDeployments j ∧
        leveledEqual val x.1 veSplitter = some true := by
  unfold VirtualService at h
  cases hl : VirtualServiceLoop name relatedDeployments veHeader veSplitter 0 availableLabels
      [{ Match := none, Route := [{ Destination := { Host := name, Subset := [] } }] }] with
  | none => rw [hl] at h; simp at h
  | some out =>
    rw [hl] at h
    obtain ⟨subs, h1, h2, h3⟩ := VirtualServiceLoop_pairs name relatedDeployments veHeader
      veSplitter availableLabels 0 _ out hl
    refine ⟨subs, ?_, h2, h3⟩
    simp only [Option.some.injEq] at h
    rw [← h, h1]
    rfl

theorem mem_routePairs (header : Str) (http : List Istio.HTTPRoute)
    (x : Option Str × Option Istio.StringMatch) :
    x ∈ routePairs header http ↔
      ∃ r ∈ http, r.Match ≠ none ∧ (routeSubset r, routeHeader header r) = x := by
  simp [routePairs, and_assoc]

theorem routePairs_synthesized (name header : Str) (subs : List (Str × Str)) :
    routePairs header (defaultRoute name :: subs.map (fun x => matchRoute name header x.1 x.2)) =
      subs.map (fun x => (some x.2,
        some ({ Exact := x.1, Prefix := [], Suffix := [], Regex := [] } : Istio.StringMatch))) := by
  induction subs with
  | nil => simp [routePairs, defaultRoute]
  | cons a t ih =>
    simp only [routePairs, defaultRoute, List.map_cons] at ih ⊢
    simp only [List.filter_cons, ne_eq, not_true_eq_false, decide_False, Bool.false_eq_true,
      if_false] at ih ⊢
    have hm : (matchRoute name header a.1 a.2).Match ≠ none := by simp [matchRoute]
    simp only [hm, not_false_eq_true, decide_True, if_true, List.map_cons, ih]
    simp [matchRoute, routeSubset, routeHeader, index0, GoMap.get, GoMap.get?]

theorem routePairs_nodup (name header : Str) (subs : List (Str × Str))
    (h : (subs.map Prod.fst).Nodup) :
    (routePairs header
      (defaultRoute name :: subs.map (fun x => matchRoute name header x.1 x.2))).Nodup := by
  rw [routePairs_synthesized]
  apply List.Nodup.of_map Prod.snd
  rw [List.map_map]
  have : (Prod.snd ∘ fun x : Str × Str => ((some x.2 : Option Str),
      (some ({ Exact := x.1, Prefix := [], Suffix := [], Regex := [] } : Istio.StringMatch)))) =
      (fun v : Str => some ({ Exact := v, Prefix := [], Suffix := [], Regex := [] } :
        Istio.StringMatch)) ∘ Prod.fst := by
    funext x; rfl
  rw [this, ← List.map_map]
  apply List.Nodup.map _ h
  intro a b hab
  simpa using hab

theorem synthesized_wellFormed (name header : Str) (subs : List (Str × Str)) :
    ∀ r ∈ defaultRoute name :: subs.map (fun x => matchRoute name header x.1 x.2),
      WellFormedRoute r ∧ SingleRoute r := by
  intro r hr
  rcases List.mem_cons.mp hr with rfl | hr
  · simp [WellFormedRoute, SingleRoute, defaultRoute]
  · obtain ⟨x, _, rfl⟩ := List.mem_map.mp hr
    simp [WellFormedRoute, SingleRoute, matchRoute]

theorem IsDifferentVirtualService_false_iff (old new : Istio.VirtualServiceSpec) (header : Str)
    (hold : ∀ r ∈ old.HTTP, WellFormedRoute r) (hnew : ∀ r ∈ new.HTTP, WellFormedRoute r) :
    (∃ b, IsDifferentVirtualService old new header = some b) ∧
      (IsDifferentVirtualService old new header = some false ↔
        (old.HTTP.length = new.HTTP.length ∧
          routePairs header old.HTTP ⊆ routePairs header new.HTTP)) := by
  obtain ⟨b, hb, hiff⟩ := virtualServiceDiffLoop_spec header new.HTTP hnew old.HTTP hold
  have hsub : (∃ r ∈ old.HTTP, r.Match ≠ none ∧
      ¬ ∃ r' ∈ new.HTTP, r'.Match ≠ none ∧ SamePair header r' r) ↔
      ¬ routePairs header old.HTTP ⊆ routePairs header new.HTTP := by
    constructor
    · rintro ⟨r, hr, hrm, hno⟩ hs
      have hx : (routeSubset r, routeHeader header r) ∈ routePairs header old.HTTP :=
        (mem_routePairs _ _ _).mpr ⟨r, hr, hrm, rfl⟩
      obtain ⟨r', hr', hrm', heq⟩ := (mem_routePairs _ _ _).mp (hs hx)
      apply hno
      refine ⟨r', hr', hrm', ?_⟩
      simp only [Prod.mk.injEq] at heq
      exact heq
    · intro hns
      by_contra hcon
      apply hns
      intro x hx
      obtain ⟨r, hr, hrm, heq⟩ := (mem_routePairs _ _ _).mp hx
      by_contra hxn
      apply hcon
      refine ⟨r, hr, hrm, ?_⟩
      rintro ⟨r', hr', hrm', hsp⟩
      apply hxn
      rw [← heq]
      exact (mem_routePairs _ _ _).mpr ⟨r', hr', hrm', by
        simp only [Prod.mk.injEq]; exact hsp⟩
  by_cases hlen : old.HTTP.length = new.HTTP.length
  · have hrun : IsDifferentVirtualService old new header = some b := by
      simp [IsDifferentVirtualService, hlen, hb]
    refine ⟨⟨b, hrun⟩, ?_⟩
    rw [hrun]
    cases b with
    | true =>
      have := hsub.mp (hiff.mp rfl)
      simp [this]
    | false =>
      have hn : ¬ ∃ r ∈ old.HTTP, r.Match ≠ none ∧
          ¬ ∃ r' ∈ new.HTTP, r'.Match ≠ none ∧ SamePair header r' r := by
        intro hex
        have := hiff.mpr hex
        simp at this
      have := not_not.mp (fun hc => hn (hsub.mpr hc))
      simp [hlen, this]
  · have hrun : IsDifferentVirtualService old new header = some true := by
      simp [IsDifferentVirtualService, hlen]
    exact ⟨⟨true, hrun⟩, by simp [hrun, hlen]⟩

theorem subset_antisymm_of_length {α : Type} [DecidableEq α] {A B : List α} (hA : A.Nodup) (hB : B.Nodup) :
    (A.length = B.length ∧ A ⊆ B) ↔ (∀ x, x ∈ A ↔ x ∈ B) := by
  constructor
  · rintro ⟨hlen, hsub⟩ x
    have hp : A.Perm B :=
      (List.subperm_of_subset hA hsub).perm_of_length_le (by omega)
    exact hp.mem_iff
  · intro h
    have h1 : A ⊆ B := fun x hx => (h x).mp hx
    have h2 : B ⊆ A := fun x hx => (h x).mpr hx
    have l1 := (List.subperm_of_subset hA h1).length_le
    have l2 := (List.subperm_of_subset hB h2).length_le
    exact ⟨by omega, h1⟩

theorem findSubsetByName_some (subsets : List Istio.Subset) (name : Str) (sub : Istio.Subset)
    (h : findSubsetByName subsets name = some sub) : sub ∈ subsets ∧ sub.Name = name := by
  induction subsets with
  | nil => simp [findSubsetByName] at h
  | cons x rest ih =>
    rw [findSubsetByName] at h
    by_cases hx : x.Name = name
    · simp only [hx, if_true, Option.some.injEq] at h
      rw [← h]
      exact ⟨List.mem_cons_self _ _, hx⟩
    · simp only [hx, if_false] at h
      obtain ⟨h1, h2⟩ := ih h
      exact ⟨List.mem_cons_of_mem _ h1, h2⟩

theorem destinationRuleLoop_false (subsets2 : List Istio.Subset) (label : Str) :
    ∀ l : List Istio.Subset, destinationRuleLoop subsets2 label l = false →
      ∀ s1 ∈ l, ∃ s2 ∈ subsets2, s2.Name = s1.Name ∧ s1.Labels.get label = s2.Labels.get label := by
  intro l
  induction l with
  | nil => intro _ s1 hs; simp at hs
  | cons x rest ih =>
    intro h s1 hs1
    rw [destinationRuleLoop] at h
    cases hf : findSubsetByName subsets2 x.Name with
    | none => rw [hf] at h; simp at h
    | some s2 =>
      rw [hf] at h
      by_cases hl : x.Labels.get label = s2.Labels.get label
      · simp only [hl, ne_eq, not_true_eq_false, if_false] at h
        rcases List.mem_cons.mp hs1 with rfl | hr
        · obtain ⟨hm, hn⟩ := findSubsetByName_some _ _ _ hf
          exact ⟨s2, hm, hn, hl⟩
        · exact ih h s1 hr
      · simp [hl] at h

theorem destinationRuleLoop_false_of (subsets2 : List Istio.Subset) (label : Str)
    (hn : (subsets2.map (fun x => x.Name)).Nodup) :
    ∀ l : List Istio.Subset,
      (∀ s1 ∈ l, ∃ s2 ∈ subsets2, s2.Name = s1.Name ∧
        s1.Labels.get label = s2.Labels.get label) →
      destinationRuleLoop subsets2 label l = false := by
  intro l
  induction l with
  | nil => intro _; rfl
  | cons x rest ih =>
    intro h
    obtain ⟨s2, hm, hname, hl⟩ := h x (List.mem_cons_self _ _)
    rw [destinationRuleLoop, ← hname, findSubsetByName_self subsets2 hn s2 hm]
    simp only [hl, ne_eq, not_true_eq_false, if_false]
    exact ih (fun s1 hs1 => h s1 (List.mem_cons_of_mem _ hs1))

theorem GoMap.nodup_of_nodup_keys {V : Type} (m : GoMap V) (h : m.keys.Nodup) : m.Nodup :=
  List.Nodup.of_map Prod.fst h

theorem GoMap.eq_of_mem_of_nodup_keys {V : Type} (m : GoMap V) (h : m.keys.Nodup) (k : Str)
    (v w : V) (hv : (k, v) ∈ m) (hw : (k, w) ∈ m) : v = w := by
  induction m with
  | nil => simp at hv
  | cons e rest ih =>
    have hcons : GoMap.keys (e :: rest) = e.1 :: GoMap.keys rest := rfl
    rw [hcons, List.nodup_cons] at h
    rcases List.mem_cons.mp hv with hv | hv
    · rcases List.mem_cons.mp hw with hw | hw
      · rw [← hv] at hw
        exact (Prod.mk.inj hw).2.symm
      · exfalso
        apply h.1
        rw [← hv]
        exact List.mem_map.mpr ⟨(k, w), hw, rfl⟩
    · rcases List.mem_cons.mp hw with hw | hw
      · exfalso
        apply h.1
        rw [← hw]
        exact List.mem_map.mpr ⟨(k, v), hv, rfl⟩
      · exact ih h.2 hv hw

theorem DestinationRule_diff_false_iff (n1 ns1 n2 ns2 : Str) (r1 r2 : GoMap Str) (k : Str)
    (h2 : r2.keys.Nodup) :
    IsDifferentDestinationRule (DestinationRule n1 ns1 r1 k).Spec
        (DestinationRule n2 ns2 r2 k).Spec k = false ↔
      (r1.length = r2.length ∧ r1 ⊆ r2) := by
  have hn2 : ((DestinationRule n2 ns2 r2 k).Spec.Subsets.map (fun x => x.Name)).Nodup := by
    rw [DestinationRule_names]; exact h2
  unfold IsDifferentDestinationRule
  rw [DestinationRule_subsets] at hn2
  rw [DestinationRule_subsets, DestinationRule_subsets, List.length_map, List.length_map]
  by_cases hlen : r1.length = r2.length
  · simp only [hlen, ne_eq, not_true_eq_false, if_false, true_and]
    constructor
    · intro h e he
      obtain ⟨s2, hs2, hname, hlab⟩ := destinationRuleLoop_false _ k _ h
        (destinationRuleMatchSubset e.1 k e.2) (List.mem_map.mpr ⟨e, he, rfl⟩)
      obtain ⟨e2, he2, rfl⟩ := List.mem_map.mp hs2
      have h1 : e2.1 = e.1 := by simpa [destinationRuleMatchSubset] using hname
      have h3 : e.2 = e2.2 := by
        simpa [destinationRuleMatchSubset, GoMap.get, GoMap.get?] using hlab
      have : e = e2 := Prod.ext h1.symm h3
      rw [this]; exact he2
    · intro hsub
      apply destinationRuleLoop_false_of _ k hn2
      intro s1 hs1
      obtain ⟨e, he, rfl⟩ := List.mem_map.mp hs1
      exact ⟨_, List.mem_map.mpr ⟨e, hsub he, rfl⟩, rfl, rfl⟩
  · simp [hlen]

theorem perm_iff_length_subset {α : Type} [DecidableEq α] {A B : List α} (hA : A.Nodup) :
    A.Perm B ↔ (A.length = B.length ∧ A ⊆ B) := by
  constructor
  · intro h; exact ⟨h.length_eq, h.subset⟩
  · rintro ⟨hlen, hsub⟩
    exact (List.subperm_of_subset hA hsub).perm_of_length_le (by omega)

theorem GoMap.get?_set {V : Type} (m : GoMap V) (k : Str) (v : V) :
    (m.set k v).get? k = some v := by
  induction m with
  | nil => simp [GoMap.set, GoMap.get?]
  | cons e rest ih =>
    obtain ⟨k', v'⟩ := e
    rw [GoMap.set]
    by_cases h : k' = k
    · simp [h, GoMap.get?]
    · simp [h, GoMap.get?, ih]

theorem set_split {α : Type} (l : List α) (i : Nat) (s s' : α) (h : l[i]? = some s) :
    ∃ pre post, l = pre ++ s :: post ∧ l.set i s' = pre ++ s' :: post := by
  induction l generalizing i with
  | nil => simp at h
  | cons a t ih =>
    cases i with
    | zero =>
      simp only [List.getElem?_cons_zero, Option.some.injEq] at h
      exact ⟨[], t, by simp [h], by simp⟩
    | succ n =>
      simp only [List.getElem?_cons_succ] at h
      obtain ⟨pre, post, h1, h2⟩ := ih n h
      exact ⟨a :: pre, post, by simp [h1], by simp [h2]⟩

theorem destinationRule_changed (pre post : List Istio.Subset) (s s' : Istio.Subset) (label : Str)
    (hn : ((pre ++ s :: post).map (fun x => x.Name)).Nodup) (hname : s'.Name = s.Name)
    (hlab : s.Labels.get label ≠ s'.Labels.get label) :
    destinationRuleLoop (pre ++ s' :: post) label (pre ++ s :: post) = true := by
  cases hres : destinationRuleLoop (pre ++ s' :: post) label (pre ++ s :: post) with
  | true => rfl
  | false =>
    exfalso
    obtain ⟨s2, hs2, hn2, hl2⟩ := destinationRuleLoop_false _ label _ hres s (by simp)
    rw [List.map_append, List.map_cons, List.nodup_append] at hn
    obtain ⟨_, hn1, hdis⟩ := hn
    rw [List.nodup_cons] at hn1
    rcases List.mem_append.mp hs2 with hp | hp
    · exact hdis (List.mem_map.mpr ⟨s2, hp, hn2⟩) (List.mem_cons_self _ _)
    · rcases List.mem_cons.mp hp with rfl | hp
      · exact hlab hl2
      · exact hn1.1 (List.mem_map.mpr ⟨s2, hp, hn2⟩)

theorem GoMap.mem_set {V : Type} (m : GoMap V) (k : Str) (v : V) (e : Str × V)
    (h : e ∈ m.set k v) : e = (k, v) ∨ e ∈ m := by
  induction m with
  | nil =>
    rw [GoMap.set, List.mem_singleton] at h
    exact Or.inl h
  | cons x rest ih =>
    obtain ⟨k', v'⟩ := x
    rw [GoMap.set] at h
    by_cases hk : k' = k
    · simp only [hk, if_true] at h
      rcases List.mem_cons.mp h with h | h
      · exact Or.inl h
      · exact Or.inr (List.mem_cons_of_mem _ h)
    · simp only [hk, if_false] at h
      rcases List.mem_cons.mp h with h | h
      · exact Or.inr (by rw [h]; exact List.mem_cons_self _ _)
      · rcases ih h with h | h
        · exact Or.inl h
        · exact Or.inr (List.mem_cons_of_mem _ h)

theorem relatedLoop_mem (selector : GoMap Str) (velabel : Str) :
    ∀ (deployments : GoMap (GoMap Str)) (acc : GoMap Str) (e : Str × Str),
      e ∈ relatedLoop selector velabel deployments acc →
      e ∈ acc ∨ ∃ labels, (e.1, labels) ∈ deployments ∧ selectorLoop labels selector = true ∧
        labels.get? velabel = some e.2 := by
  intro deployments
  induction deployments with
  | nil => intro acc e h; exact Or.inl (by simpa [relatedLoop] using h)
  | cons d rest ih =>
    intro acc e h
    obtain ⟨dep, labels⟩ := d
    rw [relatedLoop] at h
    by_cases hc : (selectorLoop labels selector && (labels.get? velabel).isSome) = true
    · rw [if_pos hc] at h
      rw [Bool.and_eq_true] at hc
      obtain ⟨val, hval⟩ := Option.isSome_iff_exists.mp hc.2
      rcases ih _ e h with h1 | ⟨l, h1, h2, h3⟩
      · rcases GoMap.mem_set _ _ _ _ h1 with h1 | h1
        · refine Or.inr ⟨labels, ?_, hc.1, ?_⟩
          · rw [h1]; exact List.mem_cons_self _ _
          · rw [h1, hval]; simp [GoMap.get, hval]
        · exact Or.inl h1
      · exact Or.inr ⟨l, List.mem_cons_of_mem _ h1, h2, h3⟩
    · rw [if_neg hc] at h
      rcases ih _ e h with h1 | ⟨l, h1, h2, h3⟩
      · exact Or.inl h1
      · exact Or.inr ⟨l, List.mem_cons_of_mem _ h1, h2, h3⟩

theorem leveledEqual_truncation_shorter (source splitter : Str) (hs : splitter ≠ [])
    (hc : Contains source splitter = true) :
    (source.take (LastIndex source splitter).toNat).length < source.length := by
  have hb := LastIndex_bound source splitter ((Contains_iff_LastIndex _ _).mp hc)
  have hpos : 0 < splitter.length := List.length_pos.mpr hs
  rw [List.length_take]
  omega

/-! ## The claims -/

/-- C1, evaluated where the code departs from it: with the related workloads `wA-stable ↦ prod` and
`wB ↦ prod.canary`, both of which leveled-match `prod`, the conditional route of `prod` targets
`wA-stable`, the workload with the longest name, in either order of the visit, although the value
of `wB` is the longer one. -/
theorem virtualServiceMatchRoute_selects_longest_name :
    virtualServiceMatchRoute "svc".toList relatedByName "prod".toList "x-env".toList ".".toList =
        some (matchRoute "svc".toList "x-env".toList "prod".toList "wA-stable".toList, true) ∧
      virtualServiceMatchRoute "svc".toList relatedByName.reverse "prod".toList "x-env".toList
          ".".toList =
        some (matchRoute "svc".toList "x-env".toList "prod".toList "wA-stable".toList, true) ∧
      leveledEqual "prod".toList "prod".toList ".".toList = some true ∧
      leveledEqual "prod.canary".toList "prod".toList ".".toList = some true ∧
      len "prod".toList < len "prod.canary".toList := by
  decide

/-- C2, evaluated where the code departs from it: in the end-to-end scenario the environment values
are `prod` and `prod.canary` and the related workloads are `wA ↦ prod`, `wB ↦ prod.canary`; when the
related workloads are visited with `wA` before `wB`, the conditional route of `prod` targets `wA`,
and that of `prod.canary` targets `wB`. -/
theorem scenario_route_targets_first_visited :
    FindAllVirtualEnvLabelValues scenarioDeployments "env".toList id =
        ["prod".toList, "prod.canary".toList] ∧
      FindAllRelatedDeployments scenarioDeployments [] "env".toList =
        [("wA".toList, "prod".toList), ("wB".toList, "prod.canary".toList)] ∧
      (VirtualService "svc".toList "ns".toList ["prod".toList, "prod.canary".toList]
          (fun _ => FindAllRelatedDeployments scenarioDeployments [] "env".toList)
          "x-env".toList ".".toList).map (fun vs => vs.Spec.HTTP) =
        some [defaultRoute "svc".toList,
          matchRoute "svc".toList "x-env".toList "prod".toList "wA".toList,
          matchRoute "svc".toList "x-env".toList "prod.canary".toList "wB".toList] := by
  decide

/-- C3: for a separator of one character `c`, `leveledEqual` returns, and it returns true exactly
when the candidate is the target or the target followed by `c` and a remainder; so
`leveledEqual("a.b.c", "a.b", ".")` is true and `leveledEqual("a.b", "a.b.c", ".")` is false. -/
theorem leveledEqual_single_char_separator (candidate target : Str) (c : Char) :
    (∃ b, leveledEqual candidate target [c] = some b) ∧
      (leveledEqual candidate target [c] = some true ↔
        (candidate = target ∨ ∃ rest, candidate = target ++ [c] ++ rest)) ∧
      leveledEqual "a.b.c".toList "a.b".toList ".".toList = some true ∧
      leveledEqual "a.b".toList "a.b.c".toList ".".toList = some false := by
  refine ⟨leveledEqual_total candidate target [c] (by simp), ?_, by decide, by decide⟩
  unfold leveledEqual
  rw [leveledEqualLoop_single target c _ candidate (Nat.lt_succ_self _)]
  constructor
  · rintro (h | ⟨rest, h⟩)
    · exact Or.inl h
    · exact Or.inr ⟨rest, h.symm⟩
  · rintro (h | ⟨rest, h⟩)
    · exact Or.inl h
    · exact Or.inr ⟨rest, h.symm⟩

/-- C4: with a non-empty separator, `VirtualService` returns a policy whose routes are the default
route (host the service name, no subset, no match) followed by one conditional route for each
environment value of the input list, in input order, that some related workload leveled-matches,
and none for the other values; each conditional route has the single match `veHeader` exactly `v`
and the service name as destination host.  An empty list of values gives the default route alone,
whatever the related workloads and the separator. -/
theorem VirtualService_route_list (name nspace : Str) (availableLabels : List Str) (m : GoMap Str)
    (relatedDeployments : Nat → GoMap Str) (veHeader veSplitter : Str) (hs : veSplitter ≠ [])
    (hperm : ∀ i, (relatedDeployments i).Perm m) :
    (∃ vs conditional,
        VirtualService name nspace availableLabels relatedDeployments veHeader veSplitter = some vs ∧
        vs.Spec.HTTP = defaultRoute name :: conditional ∧
        List.Forall₂ (IsConditionalRoute name veHeader)
          (availableLabels.filter (fun v => m.any (leveledMatch v veSplitter))) conditional) ∧
      ∀ (related : Nat → GoMap Str) (sep : Str),
        (VirtualService name nspace [] related veHeader sep).map (fun vs => vs.Spec.HTTP) =
          some [defaultRoute name] := by
  constructor
  · obtain ⟨conditional, h1, h2⟩ := VirtualServiceLoop_shape name m relatedDeployments veHeader
      veSplitter hs hperm availableLabels 0 [defaultRoute name]
    refine ⟨{ ObjectMeta := { Name := name, Namespace := nspace },
              Spec := { Hosts := [name], HTTP := [defaultRoute name] ++ conditional } },
      conditional, ?_, rfl, h2⟩
    unfold VirtualService
    rw [show ([{ Match := none, Route := [{ Destination := { Host := name, Subset := [] } }] }] :
      List Istio.HTTPRoute) = [defaultRoute name] from rfl, h1]
  · intro related sep
    simp [VirtualService, VirtualServiceLoop, defaultRoute]

/-- Witness of C4 on the workloads `wA-stable ↦ prod`, `wB ↦ prod.canary`. -/
theorem VirtualService_route_list_witness :
    (∃ vs conditional,
        VirtualService "svc".toList "ns".toList ["prod".toList, "qa".toList] (fun _ => relatedByName)
          "x-env".toList ".".toList = some vs ∧
        vs.Spec.HTTP = defaultRoute "svc".toList :: conditional ∧
        List.Forall₂ (IsConditionalRoute "svc".toList "x-env".toList)
          (["prod".toList, "qa".toList].filter
            (fun v => relatedByName.any (leveledMatch v ".".toList))) conditional) ∧
      ∀ (related : Nat → GoMap Str) (sep : Str),
        (VirtualService "svc".toList "ns".toList [] related "x-env".toList sep).map
          (fun vs => vs.Spec.HTTP) = some [defaultRoute "svc".toList] :=
  VirtualService_route_list "svc".toList "ns".toList ["prod".toList, "qa".toList] relatedByName
    (fun _ => relatedByName) "x-env".toList ".".toList (by decide) (fun _ => List.Perm.refl _)

/-- C5, evaluated where the code departs from it: for the selector `app = ""` a workload without a
label `app` is returned, because the read of a missing label gives the empty string. -/
theorem FindAllRelatedDeployments_missing_label_matches_empty :
    FindAllRelatedDeployments unlabelledDeployments emptyValueSelector "env".toList =
        [("w".toList, "a".toList)] ∧
      GoMap.get? [("env".toList, "a".toList)] "app".toList = none := by
  decide

/-- C6: `DestinationRule` has the service name as host and one subset per entry of the related map,
named after the workload and carrying the one label `veLabel = value`; the subsets are as many as
the entries and their names are pairwise distinct. -/
theorem DestinationRule_one_subset_per_workload (name nspace : Str) (relatedDeployments : GoMap Str)
    (veLabel : Str) (hkeys : relatedDeployments.keys.Nodup) :
    (DestinationRule name nspace relatedDeployments veLabel).Spec.Host = name ∧
      (DestinationRule name nspace relatedDeployments veLabel).Spec.Subsets =
        relatedDeployments.map (fun e => { Name := e.1, Labels := [(veLabel, e.2)] }) ∧
      (DestinationRule name nspace relatedDeployments veLabel).Spec.Subsets.length =
        relatedDeployments.length ∧
      ((DestinationRule name nspace relatedDeployments veLabel).Spec.Subsets.map
        (fun x => x.Name)).Nodup := by
  refine ⟨rfl, ?_, ?_, ?_⟩
  · rw [DestinationRule_subsets]; rfl
  · rw [DestinationRule_subsets, List.length_map]
  · rw [DestinationRule_names]; exact hkeys

/-- Witness of C6 on the workloads `wA-stable ↦ prod`, `wB ↦ prod.canary`. -/
theorem DestinationRule_one_subset_per_workload_witness :
    relatedByName.keys.Nodup ∧
      (DestinationRule "svc".toList "ns".toList relatedByName "env".toList).Spec.Subsets.length =
        relatedByName.length :=
  ⟨by decide,
    (DestinationRule_one_subset_per_workload "svc".toList "ns".toList relatedByName "env".toList
      (by decide)).2.2.1⟩

/-- C7: the list returned by `FindAllVirtualEnvLabelValues` has no duplicates, and a string occurs
in it exactly when some workload carries the env key with that value, whatever the order in which
the keys of the set are visited. -/
theorem FindAllVirtualEnvLabelValues_distinct_values (deployments : GoMap (GoMap Str))
    (velabel : Str) (visit : GoMap Bool → GoMap Bool) (hvisit : ∀ kv, (visit kv).Perm kv) :
    (FindAllVirtualEnvLabelValues deployments velabel visit).Nodup ∧
      ∀ v, v ∈ FindAllVirtualEnvLabelValues deployments velabel visit ↔
        ∃ e ∈ deployments, e.2.get? velabel = some v := by
  obtain ⟨h1, h2⟩ := labelSetLoop_keys velabel deployments [] (by simp [GoMap.keys])
  have hp : (FindAllVirtualEnvLabelValues deployments velabel visit).Perm
      (labelSetLoop velabel deployments []).keys := by
    unfold FindAllVirtualEnvLabelValues
    rw [getKeys_eq]
    exact (hvisit _).map Prod.fst
  refine ⟨hp.nodup_iff.mpr h1, fun v => ?_⟩
  rw [hp.mem_iff, h2]
  simp [GoMap.keys]

/-- Witness of C7 on the end-to-end scenario, the set visited in reverse order. -/
theorem FindAllVirtualEnvLabelValues_distinct_values_witness :
    (FindAllVirtualEnvLabelValues scenarioDeployments "env".toList List.reverse).Nodup ∧
      ∀ v, v ∈ FindAllVirtualEnvLabelValues scenarioDeployments "env".toList List.reverse ↔
        ∃ e ∈ scenarioDeployments, e.2.get? "env".toList = some v :=
  FindAllVirtualEnvLabelValues_distinct_values scenarioDeployments "env".toList List.reverse
    (fun kv => List.reverse_perm kv)

/-- C8 refuted as stated, with `old` the first argument and `new` the second: the two policies have
three routes each and the conditional route of `prod.canary` in `new` has no counterpart in `old`,
yet the result is false; and on a route whose match list is not nil but has no entry the call
panics instead of returning. -/
theorem IsDifferentVirtualService_new_route_undetected :
    ¬ (IsDifferentVirtualService narrowSpec wideSpec "x-env".toList = some true ↔
        (narrowSpec.HTTP.length ≠ wideSpec.HTTP.length ∨
          ∃ r ∈ wideSpec.HTTP, r.Match ≠ none ∧
            ¬ ∃ r' ∈ narrowSpec.HTTP, r'.Match ≠ none ∧ SamePair "x-env".toList r' r)) ∧
      IsDifferentVirtualService narrowSpec wideSpec "x-env".toList = some false ∧
      IsDifferentVirtualService emptyMatchSpec emptyMatchSpec "x-env".toList = none := by
  decide

/-- C8 as amended: on policies whose routes all have a destination and whose match lists, when not
nil, have an entry, `IsDifferentVirtualService(old, new, header)` returns, and it returns true
exactly when the route counts differ or some conditional route of `old`, the first argument, has no
conditional route in `new` with the same (subset, header match) pair; so when the counts coincide
and every conditional route of `old` is found in `new`, the result is false whatever other
conditional routes `new` has. -/
theorem IsDifferentVirtualService_checks_first_against_second
    (old new : Istio.VirtualServiceSpec) (header : Str)
    (hold : ∀ r ∈ old.HTTP, WellFormedRoute r) (hnew : ∀ r ∈ new.HTTP, WellFormedRoute r) :
    (∃ b, IsDifferentVirtualService old new header = some b) ∧
      (IsDifferentVirtualService old new header = some true ↔
        (old.HTTP.length ≠ new.HTTP.length ∨
          ∃ r ∈ old.HTTP, r.Match ≠ none ∧
            ¬ ∃ r' ∈ new.HTTP, r'.Match ≠ none ∧ SamePair header r' r)) ∧
      (old.HTTP.length = new.HTTP.length →
        (∀ r ∈ old.HTTP, r.Match ≠ none →
          ∃ r' ∈ new.HTTP, r'.Match ≠ none ∧ SamePair header r' r) →
        IsDifferentVirtualService old new header = some false) := by
  obtain ⟨b, hb, hiff⟩ := virtualServiceDiffLoop_spec header new.HTTP hnew old.HTTP hold
  by_cases hlen : old.HTTP.length = new.HTTP.length
  · have hrun : IsDifferentVirtualService old new header = some b := by
      simp [IsDifferentVirtualService, hlen, hb]
    refine ⟨⟨b, hrun⟩, ?_, ?_⟩
    · rw [hrun, ← hiff]
      simp [hlen]
    · intro _ hall
      rw [hrun]
      cases b with
      | false => rfl
      | true =>
        obtain ⟨r, hr, hrm, hno⟩ := hiff.mp rfl
        exact absurd (hall r hr hrm) hno
  · have hrun : IsDifferentVirtualService old new header = some true := by
      simp [IsDifferentVirtualService, hlen]
    exact ⟨⟨true, hrun⟩, by simp [hrun, hlen], fun h => absurd h hlen⟩

/-- Witness of the amended C8 on the two policies of the counterexample. -/
theorem IsDifferentVirtualService_checks_first_against_second_witness :
    ((∀ r ∈ narrowSpec.HTTP, WellFormedRoute r) ∧ (∀ r ∈ wideSpec.HTTP, WellFormedRoute r)) ∧
      IsDifferentVirtualService narrowSpec wideSpec "x-env".toList = some false :=
  ⟨⟨by decide, by decide⟩,
    (IsDifferentVirtualService_checks_first_against_second narrowSpec wideSpec "x-env".toList
      (by decide) (by decide)).2.2 (by decide) (by decide)⟩

/-- C9: with a non-empty separator `VirtualService` returns a policy `p`, and
`IsDifferentVirtualService(p.Spec, p.Spec, header)` is false for every header key. -/
theorem VirtualService_not_different_from_itself (name nspace : Str) (availableLabels : List Str)
    (relatedDeployments : Nat → GoMap Str) (veHeader veSplitter header : Str)
    (hs : veSplitter ≠ []) :
    ∃ p, VirtualService name nspace availableLabels relatedDeployments veHeader veSplitter = some p ∧
      IsDifferentVirtualService p.Spec p.Spec header = some false := by
  obtain ⟨out, h1, h2⟩ := VirtualServiceLoop_wellFormed name relatedDeployments veHeader veSplitter
    hs availableLabels 0 [defaultRoute name] (by simp [WellFormedRoute, defaultRoute])
  refine ⟨{ ObjectMeta := { Name := name, Namespace := nspace },
            Spec := { Hosts := [name], HTTP := out } }, ?_, ?_⟩
  · unfold VirtualService
    rw [show ([{ Match := none, Route := [{ Destination := { Host := name, Subset := [] } }] }] :
      List Istio.HTTPRoute) = [defaultRoute name] from rfl, h1]
  · exact IsDifferentVirtualService_self _ header h2

/-- Witness of C9 on the workloads `wA-stable ↦ prod`, `wB ↦ prod.canary`. -/
theorem VirtualService_not_different_from_itself_witness :
    ".".toList ≠ [] ∧
      ∃ p, VirtualService "svc".toList "ns".toList ["prod".toList, "qa".toList]
          (fun _ => relatedByName) "x-env".toList ".".toList = some p ∧
        IsDifferentVirtualService p.Spec p.Spec "other".toList = some false :=
  ⟨by decide,
    VirtualService_not_different_from_itself "svc".toList "ns".toList ["prod".toList, "qa".toList]
      (fun _ => relatedByName) "x-env".toList ".".toList "other".toList (by decide)⟩

/-- C10: for a policy `p` made by `DestinationRule` from a related-workload map,
`IsDifferentDestinationRule(p.Spec, p.Spec, label)` is false for every label key. -/
theorem DestinationRule_not_different_from_itself (name nspace : Str)
    (relatedDeployments : GoMap Str) (veLabel label : Str)
    (hkeys : relatedDeployments.keys.Nodup) :
    IsDifferentDestinationRule (DestinationRule name nspace relatedDeployments veLabel).Spec
      (DestinationRule name nspace relatedDeployments veLabel).Spec label = false := by
  have hn : ((DestinationRule name nspace relatedDeployments veLabel).Spec.Subsets.map
      (fun x => x.Name)).Nodup := by
    rw [DestinationRule_names]; exact hkeys
  unfold IsDifferentDestinationRule
  simp only [ne_eq, not_true_eq_false, if_false]
  exact destinationRuleLoop_self _ label hn _ (fun x hx => hx)

/-- Witness of C10 on the workloads `wA-stable ↦ prod`, `wB ↦ prod.canary`. -/
theorem DestinationRule_not_different_from_itself_witness :
    relatedByName.keys.Nodup ∧
      IsDifferentDestinationRule
        (DestinationRule "svc".toList "ns".toList relatedByName "env".toList).Spec
        (DestinationRule "svc".toList "ns".toList relatedByName "env".toList).Spec
        "zone".toList = false :=
  ⟨by decide,
    DestinationRule_not_different_from_itself "svc".toList "ns".toList relatedByName "env".toList
      "zone".toList (by decide)⟩

/-- C11: when one subset of a policy made by `DestinationRule` with env key `k` gets another value
for its label `k`, the other subsets staying as they are, `IsDifferentDestinationRule` on the
policy and the changed policy with label `k` is true. -/
theorem DestinationRule_label_change_detected (name nspace : Str) (relatedDeployments : GoMap Str)
    (k : Str) (i : Nat) (sub : Istio.Subset) (val : Str)
    (hkeys : relatedDeployments.keys.Nodup)
    (hi : (DestinationRule name nspace relatedDeployments k).Spec.Subsets[i]? = some sub)
    (hval : val ≠ sub.Labels.get k) :
    IsDifferentDestinationRule (DestinationRule name nspace relatedDeployments k).Spec
      { Host := name,
        Subsets := (DestinationRule name nspace relatedDeployments k).Spec.Subsets.set i
          { Name := sub.Name, Labels := sub.Labels.set k val } } k = true := by
  have hn : ((DestinationRule name nspace relatedDeployments k).Spec.Subsets.map
      (fun x => x.Name)).Nodup := by
    rw [DestinationRule_names]; exact hkeys
  obtain ⟨pre, post, h1, h2⟩ := set_split _ i sub
    { Name := sub.Name, Labels := sub.Labels.set k val } hi
  unfold IsDifferentDestinationRule
  simp only [List.length_set, ne_eq, not_true_eq_false, if_false]
  rw [h2]
  rw [h1] at hn ⊢
  apply destinationRule_changed pre post sub
    { Name := sub.Name, Labels := sub.Labels.set k val } k hn rfl
  intro heq
  apply hval
  rw [heq]
  simp [GoMap.get, GoMap.get?_set]

/-- Witness of C11: the value of `wB` in the end-to-end scenario changed to `prod.beta`. -/
theorem DestinationRule_label_change_detected_witness :
    IsDifferentDestinationRule
      (DestinationRule "svc".toList "ns".toList relatedScenario "env".toList).Spec
      { Host := "svc".toList,
        Subsets := (DestinationRule "svc".toList "ns".toList relatedScenario
            "env".toList).Spec.Subsets.set 1
          { Name := "wB".toList,
            Labels := GoMap.set [("env".toList, "prod.canary".toList)] "env".toList
              "prod.beta".toList } } "env".toList = true :=
  DestinationRule_label_change_detected "svc".toList "ns".toList relatedScenario "env".toList 1
    { Name := "wB".toList, Labels := [("env".toList, "prod.canary".toList)] } "prod.beta".toList
    (by decide) (by decide) (by decide)

/-- C12 refuted as stated: of `ééé` and `abcd` the function returns `ééé`, which has six bytes
and three characters, although `abcd` has more characters. -/
theorem findLongestString_not_longest_in_characters :
    findLongestString ["ééé".toList, "abcd".toList] = "ééé".toList ∧
      len "ééé".toList = 6 ∧ len "abcd".toList = 4 ∧
      "ééé".toList.length < "abcd".toList.length := by
  decide

/-- C12 as amended: `findLongestString` returns the empty string for an empty list and otherwise
the first string of the list whose length in bytes (`len`) is maximal: the strings before it are
strictly shorter and those after it are not longer; `["v1", "v1.2", "v1.2.3"]` gives `v1.2.3`. -/
theorem findLongestString_first_of_maximal_len (strings : List Str) :
    (strings = [] → findLongestString strings = []) ∧
      (strings ≠ [] → ∃ pre post, strings = pre ++ findLongestString strings :: post ∧
        (∀ x ∈ pre, len x < len (findLongestString strings)) ∧
        (∀ x ∈ post, len x ≤ len (findLongestString strings))) ∧
      findLongestString ["v1".toList, "v1.2".toList, "v1.2.3".toList] = "v1.2.3".toList := by
  refine ⟨?_, findLongestString_first_max strings, by decide⟩
  intro h
  rw [h]
  rfl

/-- Witness of the amended C12 on the strings `ééé` and `abcd`. -/
theorem findLongestString_first_of_maximal_len_witness :
    ∃ pre post, ["ééé".toList, "abcd".toList] =
        pre ++ findLongestString ["ééé".toList, "abcd".toList] :: post ∧
      (∀ x ∈ pre, len x < len (findLongestString ["ééé".toList, "abcd".toList])) ∧
      (∀ x ∈ post, len x ≤ len (findLongestString ["ééé".toList, "abcd".toList])) :=
  (findLongestString_first_of_maximal_len ["ééé".toList, "abcd".toList]).2.1 (by decide)

/-- C13, evaluated where the code departs from it: with the empty separator, candidate `a` and
target `b`, every iteration finds the separator at index `len(source)` and keeps the candidate
whole, so the loop returns for no amount of fuel. -/
theorem leveledEqual_empty_separator_never_returns :
    (∀ fuel, leveledEqualLoop fuel "a".toList "b".toList [] = none) ∧
      leveledEqual "a".toList "b".toList [] = none ∧
      Contains "a".toList [] = true ∧
      "a".toList.take (LastIndex "a".toList []).toNat = "a".toList :=
  ⟨leveledEqualLoop_diverges "a".toList "b".toList (by decide), by decide, by decide, by decide⟩

/-- C14 refuted as stated: on the empty candidate, of length 0, the loop runs once before it
returns, and on the candidate `...`, of length 3, it has not returned after three iterations and
returns in the fourth. -/
theorem leveledEqual_needs_one_more_iteration :
    leveledEqualLoop "".toList.length "".toList "x".toList ".".toList = none ∧
      leveledEqualLoop ("".toList.length + 1) "".toList "x".toList ".".toList = some false ∧
      leveledEqualLoop "...".toList.length "...".toList "x".toList ".".toList = none ∧
      leveledEqualLoop ("...".toList.length + 1) "...".toList "x".toList ".".toList =
        some false := by
  decide

/-- C14 as amended: with a non-empty separator `leveledEqual` terminates: each truncation yields
a strictly shorter candidate, so the loop returns within `length(candidate) + 1` iterations, and
more fuel does not change the result. -/
theorem leveledEqual_terminates (candidate target splitter : Str) (hs : splitter ≠ []) :
    (∃ b, leveledEqualLoop (candidate.length + 1) candidate target splitter = some b ∧
        leveledEqual candidate target splitter = some b ∧
        ∀ more, leveledEqualLoop (candidate.length + 1 + more) candidate target splitter =
          some b) ∧
      ∀ source, Contains source splitter = true →
        (source.take (LastIndex source splitter).toNat).length < source.length := by
  constructor
  · obtain ⟨b, hb⟩ := leveledEqualLoop_total target splitter hs (candidate.length + 1) candidate
      (Nat.lt_succ_self _)
    exact ⟨b, hb, hb, fun more => leveledEqualLoop_fuel target splitter _ more candidate b hb⟩
  · intro source hc
    exact leveledEqual_truncation_shorter source splitter hs hc

/-- Witness of the amended C14 on the candidate `...` and the separator `.`. -/
theorem leveledEqual_terminates_witness :
    ".".toList ≠ [] ∧
      ∃ b, leveledEqualLoop ("...".toList.length + 1) "...".toList "x".toList ".".toList =
          some b ∧
        leveledEqual "...".toList "x".toList ".".toList = some b ∧
        ∀ more, leveledEqualLoop ("...".toList.length + 1 + more) "...".toList "x".toList
          ".".toList = some b :=
  ⟨by decide, (leveledEqual_terminates "...".toList "x".toList ".".toList (by decide)).1⟩

/-- C15 refuted as stated: a workload whose label `env` is present with the empty value is
returned with the empty value. -/
theorem FindAllRelatedDeployments_keeps_empty_value :
    FindAllRelatedDeployments emptyValueDeployments [] "env".toList = [("w".toList, [])] := by
  decide

/-- C15 as amended: every entry of the map returned by `FindAllRelatedDeployments` maps a
workload to the value that its labels give to the env key, which they carry; the value may be
empty. -/
theorem FindAllRelatedDeployments_values_are_label_values (deployments : GoMap (GoMap Str))
    (selector : GoMap Str) (velabel : Str) (e : Str × Str)
    (he : e ∈ FindAllRelatedDeployments deployments selector velabel) :
    ∃ labels, (e.1, labels) ∈ deployments ∧ labels.get? velabel = some e.2 := by
  rcases relatedLoop_mem selector velabel deployments [] e he with h | ⟨labels, h1, _, h3⟩
  · simp at h
  · exact ⟨labels, h1, h3⟩

/-- Witness of the amended C15 on the workload with the empty value. -/
theorem FindAllRelatedDeployments_values_are_label_values_witness :
    ∃ labels, ("w".toList, labels) ∈ emptyValueDeployments ∧
      labels.get? "env".toList = some [] :=
  FindAllRelatedDeployments_values_are_label_values emptyValueDeployments [] "env".toList
    ("w".toList, []) (by decide)

/-- C16: `leveledEqual(x, x, sep)` returns true for every `x`, empty or not, and every separator,
the empty one included. -/
theorem leveledEqual_reflexive (x sep : Str) : leveledEqual x x sep = some true := by
  simp [leveledEqual, leveledEqualLoop]

/-- C17: on two policies returned by `VirtualService`, `IsDifferentVirtualService` returns for
every header key: no access `Route[0]` or `Match[0]` is out of range, because every route of the
two policies has exactly one destination and, when its match list is not nil, exactly one match. -/
theorem IsDifferentVirtualService_total_on_synthesized
    (name1 nspace1 : Str) (labels1 : List Str) (related1 : Nat → GoMap Str)
    (veHeader1 veSplitter1 : Str)
    (name2 nspace2 : Str) (labels2 : List Str) (related2 : Nat → GoMap Str)
    (veHeader2 veSplitter2 header : Str) (p q : Istio.VirtualService)
    (hp : VirtualService name1 nspace1 labels1 related1 veHeader1 veSplitter1 = some p)
    (hq : VirtualService name2 nspace2 labels2 related2 veHeader2 veSplitter2 = some q) :
    (∃ b, IsDifferentVirtualService p.Spec q.Spec header = some b) ∧
      (∀ r ∈ p.Spec.HTTP, SingleRoute r) ∧ (∀ r ∈ q.Spec.HTTP, SingleRoute r) := by
  obtain ⟨subs1, h1, _, _⟩ := VirtualService_pairs _ _ _ _ _ _ p hp
  obtain ⟨subs2, h2, _, _⟩ := VirtualService_pairs _ _ _ _ _ _ q hq
  have w1 := synthesized_wellFormed name1 veHeader1 subs1
  have w2 := synthesized_wellFormed name2 veHeader2 subs2
  rw [← h1] at w1
  rw [← h2] at w2
  exact ⟨(IsDifferentVirtualService_false_iff p.Spec q.Spec header (fun r hr => (w1 r hr).1)
    (fun r hr => (w2 r hr).1)).1, fun r hr => (w1 r hr).2, fun r hr => (w2 r hr).2⟩

/-- Witness of C17 on the policy of the end-to-end scenario, compared with itself. -/
theorem IsDifferentVirtualService_total_on_synthesized_witness :
    VirtualService "svc".toList "ns".toList ["prod".toList, "prod.canary".toList]
        (fun _ => relatedScenario) "x-env".toList ".".toList = some scenarioPolicy ∧
      ∃ b, IsDifferentVirtualService scenarioPolicy.Spec scenarioPolicy.Spec "x-env".toList =
        some b :=
  ⟨by decide,
    (IsDifferentVirtualService_total_on_synthesized
      "svc".toList "ns".toList ["prod".toList, "prod.canary".toList] (fun _ => relatedScenario)
      "x-env".toList ".".toList
      "svc".toList "ns".toList ["prod".toList, "prod.canary".toList] (fun _ => relatedScenario)
      "x-env".toList ".".toList "x-env".toList scenarioPolicy scenarioPolicy
      (by decide) (by decide)).1⟩

/-- C18: for two related-workload maps and one env key `k`, `IsDifferentDestinationRule` on the
two policies made by `DestinationRule`, whatever their names and namespaces, is false exactly when
the two maps have the same entries; hence the result is the same with the arguments exchanged. -/
theorem DestinationRule_diff_false_iff_same_map (n1 ns1 n2 ns2 : Str) (r1 r2 : GoMap Str)
    (k : Str) (h1 : r1.keys.Nodup) (h2 : r2.keys.Nodup) :
    (IsDifferentDestinationRule (DestinationRule n1 ns1 r1 k).Spec
        (DestinationRule n2 ns2 r2 k).Spec k = false ↔ r1.Perm r2) ∧
      IsDifferentDestinationRule (DestinationRule n1 ns1 r1 k).Spec
          (DestinationRule n2 ns2 r2 k).Spec k =
        IsDifferentDestinationRule (DestinationRule n2 ns2 r2 k).Spec
          (DestinationRule n1 ns1 r1 k).Spec k := by
  have e1 : IsDifferentDestinationRule (DestinationRule n1 ns1 r1 k).Spec
      (DestinationRule n2 ns2 r2 k).Spec k = false ↔ r1.Perm r2 := by
    rw [DestinationRule_diff_false_iff n1 ns1 n2 ns2 r1 r2 k h2,
      perm_iff_length_subset (GoMap.nodup_of_nodup_keys r1 h1)]
  have e2 : IsDifferentDestinationRule (DestinationRule n2 ns2 r2 k).Spec
      (DestinationRule n1 ns1 r1 k).Spec k = false ↔ r2.Perm r1 := by
    rw [DestinationRule_diff_false_iff n2 ns2 n1 ns1 r2 r1 k h1,
      perm_iff_length_subset (GoMap.nodup_of_nodup_keys r2 h2)]
  refine ⟨e1, ?_⟩
  cases hb : IsDifferentDestinationRule (DestinationRule n1 ns1 r1 k).Spec
      (DestinationRule n2 ns2 r2 k).Spec k with
  | false => exact (e2.mpr (e1.mp hb).symm).symm
  | true =>
    cases hc : IsDifferentDestinationRule (DestinationRule n2 ns2 r2 k).Spec
        (DestinationRule n1 ns1 r1 k).Spec k with
    | true => rfl
    | false =>
      have := e1.mpr (e2.mp hc).symm
      rw [hb] at this
      exact this

/-- Witness of C18 on the end-to-end scenario and the same map visited in reverse order, under
two service names. -/
theorem DestinationRule_diff_false_iff_same_map_witness :
    (relatedScenario.keys.Nodup ∧ (GoMap.keys relatedScenario.reverse).Nodup) ∧
      IsDifferentDestinationRule
        (DestinationRule "svc".toList "ns".toList relatedScenario "env".toList).Spec
        (DestinationRule "web".toList "ns".toList relatedScenario.reverse "env".toList).Spec
        "env".toList = false :=
  ⟨⟨by decide, by decide⟩,
    (DestinationRule_diff_false_iff_same_map "svc".toList "ns".toList "web".toList "ns".toList
      relatedScenario relatedScenario.reverse "env".toList (by decide) (by decide)).1.mpr
      (List.reverse_perm relatedScenario).symm⟩

/-- C19: for two policies returned by `VirtualService` with the same header key from lists of
environment values without duplicates, `IsDifferentVirtualService` with that key returns, and it
returns false exactly when the two policies have the same set of (subset, header match) pairs
over their conditional routes. -/
theorem IsDifferentVirtualService_false_iff_same_pairs
    (name1 nspace1 : Str) (labels1 : List Str) (related1 : Nat → GoMap Str) (veSplitter1 : Str)
    (name2 nspace2 : Str) (labels2 : List Str) (related2 : Nat → GoMap Str) (veSplitter2 : Str)
    (veHeader : Str) (p q : Istio.VirtualService)
    (hd1 : labels1.Nodup) (hd2 : labels2.Nodup)
    (hp : VirtualService name1 nspace1 labels1 related1 veHeader veSplitter1 = some p)
    (hq : VirtualService name2 nspace2 labels2 related2 veHeader veSplitter2 = some q) :
    (∃ b, IsDifferentVirtualService p.Spec q.Spec veHeader = some b) ∧
      (IsDifferentVirtualService p.Spec q.Spec veHeader = some false ↔
        ∀ x, x ∈ routePairs veHeader p.Spec.HTTP ↔ x ∈ routePairs veHeader q.Spec.HTTP) := by
  obtain ⟨subs1, h1, s1, _⟩ := VirtualService_pairs _ _ _ _ _ _ p hp
  obtain ⟨subs2, h2, s2, _⟩ := VirtualService_pairs _ _ _ _ _ _ q hq
  have w1 := synthesized_wellFormed name1 veHeader subs1
  have w2 := synthesized_wellFormed name2 veHeader subs2
  have n1 := routePairs_nodup name1 veHeader subs1 (s1.nodup hd1)
  have n2 := routePairs_nodup name2 veHeader subs2 (s2.nodup hd2)
  have l1 : (routePairs veHeader (defaultRoute name1 ::
      subs1.map (fun x => matchRoute name1 veHeader x.1 x.2))).length = subs1.length := by
    rw [routePairs_synthesized, List.length_map]
  have l2 : (routePairs veHeader (defaultRoute name2 ::
      subs2.map (fun x => matchRoute name2 veHeader x.1 x.2))).length = subs2.length := by
    rw [routePairs_synthesized, List.length_map]
  rw [← h1] at w1 n1 l1
  rw [← h2] at w2 n2 l2
  obtain ⟨hret, hiff⟩ := IsDifferentVirtualService_false_iff p.Spec q.Spec veHeader
    (fun r hr => (w1 r hr).1) (fun r hr => (w2 r hr).1)
  refine ⟨hret, ?_⟩
  rw [hiff, ← subset_antisymm_of_length n1 n2, l1, l2, h1, h2]
  simp

/-- Witness of C19 on the policy of the end-to-end scenario, compared with itself. -/
theorem IsDifferentVirtualService_false_iff_same_pairs_witness :
    IsDifferentVirtualService scenarioPolicy.Spec scenarioPolicy.Spec "x-env".toList =
      some false :=
  (IsDifferentVirtualService_false_iff_same_pairs
    "svc".toList "ns".toList ["prod".toList, "prod.canary".toList] (fun _ => relatedScenario)
    ".".toList
    "svc".toList "ns".toList ["prod".toList, "prod.canary".toList] (fun _ => relatedScenario)
    ".".toList "x-env".toList scenarioPolicy scenarioPolicy
    (by decide) (by decide) (by decide) (by decide)).2.mpr (fun _ => Iff.rfl)

/-- C20: with a non-empty separator `VirtualService` returns a policy in which every conditional
route is the route of an environment value `v` of the input list to a subset named after a
workload of the related map whose value leveled-matches `v`; that name is the name of a subset of
the policy made by `DestinationRule` from the same map, in whatever order it is visited. -/
theorem VirtualService_subsets_are_defined (name nspace : Str) (availableLabels : List Str)
    (m : GoMap Str) (relatedDeployments : Nat → GoMap Str) (veHeader veSplitter : Str)
    (hs : veSplitter ≠ []) (hperm : ∀ i, (relatedDeployments i).Perm m) :
    ∃ p, VirtualService name nspace availableLabels relatedDeployments veHeader veSplitter =
        some p ∧
      ∀ r ∈ p.Spec.HTTP, r.Match ≠ none →
        ∃ v sub val, r = matchRoute name veHeader v sub ∧ v ∈ availableLabels ∧ (sub, val) ∈ m ∧
          leveledEqual val v veSplitter = some true ∧
          ∀ (nspace2 veLabel : Str) (order : GoMap Str), order.Perm m →
            sub ∈ (DestinationRule name nspace2 order veLabel).Spec.Subsets.map
              (fun x => x.Name) := by
  obtain ⟨out, h1, _⟩ := VirtualServiceLoop_wellFormed name relatedDeployments veHeader veSplitter
    hs availableLabels 0 [defaultRoute name] (by simp [WellFormedRoute, defaultRoute])
  have hp : VirtualService name nspace availableLabels relatedDeployments veHeader veSplitter =
      some { ObjectMeta := { Name := name, Namespace := nspace },
             Spec := { Hosts := [name], HTTP := out } } := by
    unfold VirtualService
    rw [show ([{ Match := none, Route := [{ Destination := { Host := name, Subset := [] } }] }] :
      List Istio.HTTPRoute) = [defaultRoute name] from rfl, h1]
  refine ⟨_, hp, ?_⟩
  obtain ⟨subs, h2, h3, h4⟩ := VirtualService_pairs _ _ _ _ _ _ _ hp
  intro r hr hrm
  rw [h2] at hr
  rcases List.mem_cons.mp hr with rfl | hr
  · exact absurd rfl hrm
  · obtain ⟨x, hx, rfl⟩ := List.mem_map.mp hr
    obtain ⟨j, val, hmem, hle⟩ := h4 x hx
    have hm : (x.2, val) ∈ m := (hperm j).subset hmem
    refine ⟨x.1, x.2, val, rfl, h3.subset (List.mem_map.mpr ⟨x, hx, rfl⟩), hm, hle, ?_⟩
    intro nspace2 veLabel order ho
    rw [DestinationRule_names]
    exact List.mem_map.mpr ⟨(x.2, val), ho.symm.subset hm, rfl⟩

/-- Witness of C20 on the end-to-end scenario. -/
theorem VirtualService_subsets_are_defined_witness :
    ".".toList ≠ [] ∧
      ∃ p, VirtualService "svc".toList "ns".toList ["prod".toList, "prod.canary".toList]
          (fun _ => relatedScenario) "x-env".toList ".".toList = some p ∧
        ∀ r ∈ p.Spec.HTTP, r.Match ≠ none →
          ∃ v sub val, r = matchRoute "svc".toList "x-env".toList v sub ∧
            v ∈ ["prod".toList, "prod.canary".toList] ∧ (sub, val) ∈ relatedScenario ∧
            leveledEqual val v ".".toList = some true ∧
            ∀ (nspace2 veLabel : Str) (order : GoMap Str), order.Perm relatedScenario →
              sub ∈ (DestinationRule "svc".toList nspace2 order veLabel).Spec.Subsets.map
                (fun x => x.Name) :=
  ⟨by decide,
    VirtualService_subsets_are_defined "svc".toList "ns".toList
      ["prod".toList, "prod.canary".toList] relatedScenario (fun _ => relatedScenario)
      "x-env".toList ".".toList (by decide) (fun _ => List.Perm.refl _)⟩

end Shared
